import Mathlib

/-!
Shallow embedding of the B+Tree node layer of `tree.go` together with proofs
about it.  A page buffer (`BNode`, a Go byte slice) is modelled as a total
function from byte index to byte value; every 16-bit quantity that Go computes
in `uint16` arithmetic is reduced `% 65536` exactly where Go truncates, and all
little-endian reads reduce each byte `% 256`.  Accessors and builders whose Go
bodies contain an explicit `panic` guard return `Option`, with `none` exactly
on the panic branch.
-/

namespace GoBTree

/-- Go constant `HEADER`. -/
def HEADER : Nat := 4

/-- Go constant `BTREE_PAGE_SIZE`. -/
def BTREE_PAGE_SIZE : Nat := 4096

/-- Go constant `BTREE_MAX_KEY_SIZE`. -/
def BTREE_MAX_KEY_SIZE : Nat := 1000

/-- Go constant `BTREE_MAX_VAL_SIZE`. -/
def BTREE_MAX_VAL_SIZE : Nat := 3000

/-- Go constant `BNODE_NODE` (internal node type tag). -/
def BNODE_NODE : Nat := 1

/-- Go constant `BNODE_LEAF` (leaf node type tag). -/
def BNODE_LEAF : Nat := 2

/-- The quantity `node1max` computed in Go's `init`: space for one
maximum-sized key/value pair. -/
def node1max : Nat := HEADER + 8 + 2 + 4 + BTREE_MAX_KEY_SIZE + BTREE_MAX_VAL_SIZE

/-- Go's `init` panics iff `node1max > BTREE_PAGE_SIZE`; `initOk` is true iff
`init` completes without panicking. -/
def initOk : Bool := decide (node1max ≤ BTREE_PAGE_SIZE)

/-- A Go `BNode` is a byte slice; we model it as a total byte function. -/
abbrev BNode : Type := Nat → Nat

/-- Write one byte (Go stores `uint8`, hence the `% 256`). -/
def writeByte (node : BNode) (p b : Nat) : BNode :=
  fun i => if i = p then b % 256 else node i

/-- Little-endian read of `k` bytes starting at byte index `p`. -/
def readLE (node : BNode) (p : Nat) : Nat → Nat
  | 0 => 0
  | k + 1 => node p % 256 + 256 * readLE node (p + 1) k

/-- Little-endian write of `k` bytes of `v` starting at byte index `p`
(Go's `binary.LittleEndian.PutUintNN`). -/
def writeLE (node : BNode) (p v : Nat) : Nat → BNode
  | 0 => node
  | k + 1 => writeLE (writeByte node p v) (p + 1) (v / 256) k

/-- `binary.LittleEndian.Uint16(node[p:])`. -/
def readU16 (node : BNode) (p : Nat) : Nat := readLE node p 2

/-- `binary.LittleEndian.PutUint16(node[p:], v)`. -/
def writeU16 (node : BNode) (p v : Nat) : BNode := writeLE node p v 2

/-- `binary.LittleEndian.Uint64(node[p:])`. -/
def readU64 (node : BNode) (p : Nat) : Nat := readLE node p 8

/-- `binary.LittleEndian.PutUint64(node[p:], v)`. -/
def writeU64 (node : BNode) (p v : Nat) : BNode := writeLE node p v 8

/-- `copy(node[p:], data)` for a concrete byte list `data`. -/
def writeBytes (node : BNode) (p : Nat) : List Nat → BNode
  | [] => node
  | b :: bs => writeBytes (writeByte node p b) (p + 1) bs

/-- `copy(dst[p:], src[b:e])`: copy the byte range `[b, e)` of `src` into
`dst` starting at `p`. -/
def copyBytes (dst : BNode) (p : Nat) (src : BNode) (b e : Nat) : BNode :=
  if b < e then copyBytes (writeByte dst p (src b)) (p + 1) src (b + 1) e else dst
termination_by e - b

/-- Go `func (node BNode) btype() uint16`. -/
def BNode.btype (node : BNode) : Nat := readU16 node 0

/-- Go `func (node BNode) nkeys() uint16`. -/
def BNode.nkeys (node : BNode) : Nat := readU16 node 2

/-- Go `func (node BNode) setHeader(btype uint16, nkeys uint16)`. -/
def BNode.setHeader (node : BNode) (btype nkeys : Nat) : BNode :=
  writeU16 (writeU16 node 0 btype) 2 nkeys

/-- Go `func (node BNode) getPtr(idx uint16) uint64`; `none` is the panic
branch `idx >= node.nkeys()`.  The slot position `HEADER + 8*idx` is a
`uint16` expression, hence `% 65536`. -/
def BNode.getPtr (node : BNode) (idx : Nat) : Option Nat :=
  if node.nkeys ≤ idx then none
  else some (readU64 node ((HEADER + 8 * idx) % 65536))

/-- Go `func (node BNode) setPtr(idx uint16, val uint64)`. -/
def BNode.setPtr (node : BNode) (idx : Nat) (val : Nat) : Option BNode :=
  if node.nkeys ≤ idx then none
  else some (writeU64 node ((HEADER + 8 * idx) % 65536) val)

/-- Go `func offsetPos(node BNode, idx uint16) uint16`; `none` is the panic
branch `idx < 1 || idx > node.nkeys()`. -/
def offsetPos (node : BNode) (idx : Nat) : Option Nat :=
  if idx < 1 ∨ node.nkeys < idx then none
  else some ((HEADER + 8 * node.nkeys + 2 * (idx - 1)) % 65536)

/-- Go `func (node BNode) getOffset(idx uint16) uint16`. -/
def BNode.getOffset (node : BNode) (idx : Nat) : Option Nat :=
  if idx = 0 then some 0
  else (offsetPos node idx).map (fun p => readU16 node p)

/-- Go `func (node BNode) setOffset(idx uint16, offset uint16)`. -/
def BNode.setOffset (node : BNode) (idx offset : Nat) : Option BNode :=
  (offsetPos node idx).map (fun p => writeU16 node p offset)

/-- Go `func (node BNode) kvPos(idx uint16) uint16`; `none` is the panic
branch `idx > node.nkeys()`. -/
def BNode.kvPos (node : BNode) (idx : Nat) : Option Nat :=
  if node.nkeys < idx then none
  else (node.getOffset idx).map
    (fun off => (HEADER + 8 * node.nkeys + 2 * node.nkeys + off) % 65536)

/-- Go `func (node BNode) getKey(idx uint16) []byte`. -/
def BNode.getKey (node : BNode) (idx : Nat) : Option (List Nat) :=
  if node.nkeys ≤ idx then none
  else (node.kvPos idx).map (fun pos =>
    let klen := readU16 node pos
    (List.range klen).map (fun j => node ((pos + 4) % 65536 + j) % 256))

/-- Go `func (node BNode) getVal(idx uint16) []byte`. -/
def BNode.getVal (node : BNode) (idx : Nat) : Option (List Nat) :=
  if node.nkeys ≤ idx then none
  else (node.kvPos idx).map (fun pos =>
    let klen := readU16 node pos
    let vlen := readU16 node ((pos + 2) % 65536)
    (List.range vlen).map (fun j => node ((pos + 4 + klen) % 65536 + j) % 256))

/-- Go `func (node BNode) nbytes() uint16`. -/
def BNode.nbytes (node : BNode) : Option Nat := node.kvPos node.nkeys

/-- Go `bytes.Compare` on byte slices: -1, 0 or 1, byte-lexicographic. -/
def bytesCompare : List Nat → List Nat → Int
  | [], [] => 0
  | [], _ :: _ => -1
  | _ :: _, [] => 1
  | a :: as, b :: bs =>
    if a < b then -1 else if b < a then 1 else bytesCompare as bs

/-- The loop of `nodeLookupLE`: `i` is the loop counter, `found` the running
result.  `none` would arise only from the (unreachable) panic in `getKey`. -/
def lookupLoop (node : BNode) (key : List Nat) (i found : Nat) : Option Nat :=
  if i < node.nkeys then
    match node.getKey i with
    | none => none
    | some ki =>
      let cmp := bytesCompare ki key
      let found1 := if cmp ≤ 0 then i else found
      if 0 ≤ cmp then some found1
      else lookupLoop node key (i + 1) found1
  else some found
termination_by node.nkeys - i

/-- Go `func nodeLookupLE(node BNode, key []byte) uint16`. -/
def nodeLookupLE (node : BNode) (key : List Nat) : Option Nat :=
  lookupLoop node key 1 0

/-- The pointer-copying loop of `nodeAppendRange` (`for i := uint16(0); i < n`). -/
def ptrLoop (new old : BNode) (dstNew srcOld n i : Nat) : Option BNode :=
  if i < n then
    match old.getPtr ((srcOld + i) % 65536) with
    | none => none
    | some p =>
      match new.setPtr ((dstNew + i) % 65536) p with
      | none => none
      | some new1 => ptrLoop new1 old dstNew srcOld n (i + 1)
  else some new
termination_by n - i

/-- The offset-copying loop of `nodeAppendRange` (`for i := uint16(1); i <= n`).
The Go expression `dstBegin + old.getOffset(srcOld+i) - srcBegin` is `uint16`
arithmetic; adding `65536` before the truncating store keeps the Nat
subtraction faithful to the modular result. -/
def offLoop (new old : BNode) (dstNew srcOld dstBegin srcBegin n i : Nat) :
    Option BNode :=
  if i ≤ n then
    match old.getOffset ((srcOld + i) % 65536) with
    | none => none
    | some soff =>
      let offset := (dstBegin + 65536 + soff - srcBegin) % 65536
      match new.setOffset ((dstNew + i) % 65536) offset with
      | none => none
      | some new1 => offLoop new1 old dstNew srcOld dstBegin srcBegin n (i + 1)
  else some new
termination_by n + 1 - i

/-- Go `func nodeAppendRange(new BNode, old BNode, dstNew uint16, srcOld uint16,
n uint16)`. -/
def nodeAppendRange (new old : BNode) (dstNew srcOld n : Nat) : Option BNode :=
  if n = 0 then some new
  else
    match ptrLoop new old dstNew srcOld n 0 with
    | none => none
    | some new1 =>
      match new1.getOffset dstNew, old.getOffset srcOld with
      | some dstBegin, some srcBegin =>
        match offLoop new1 old dstNew srcOld dstBegin srcBegin n 1 with
        | none => none
        | some new2 =>
          match old.kvPos srcOld, old.kvPos ((srcOld + n) % 65536) with
          | some b, some e =>
            match new2.kvPos dstNew with
            | none => none
            | some pos => some (copyBytes new2 pos old b e)
          | _, _ => none
      | _, _ => none

/-- Go `func nodeAppendKV(new BNode, idx uint16, ptr uint64, key []byte,
val []byte)`. -/
def nodeAppendKV (new : BNode) (idx ptr : Nat) (key val : List Nat) :
    Option BNode :=
  match new.setPtr idx ptr with
  | none => none
  | some new1 =>
    match new1.kvPos idx with
    | none => none
    | some pos =>
      let new2 := writeU16 new1 pos key.length
      let new3 := writeU16 new2 ((pos + 2) % 65536) val.length
      let new4 := writeBytes new3 ((pos + 4) % 65536) key
      let new5 := writeBytes new4 ((pos + 4 + key.length) % 65536) val
      match new5.getOffset idx with
      | none => none
      | some off =>
        new5.setOffset ((idx + 1) % 65536)
          ((off + 4 + (key.length + val.length)) % 65536)

/-- Go `func leafInsert(new BNode, old BNode, idx uint16, key []byte,
val []byte)`.  `old.nkeys() - idx` is `uint16` subtraction, hence the
`+ 65536` before the truncation. -/
def leafInsert (new old : BNode) (idx : Nat) (key val : List Nat) :
    Option BNode :=
  let new1 := BNode.setHeader new BNODE_LEAF (old.nkeys + 1)
  match nodeAppendRange new1 old 0 0 idx with
  | none => none
  | some new2 =>
    match nodeAppendKV new2 idx 0 key val with
    | none => none
    | some new3 =>
      nodeAppendRange new3 old ((idx + 1) % 65536) idx
        ((old.nkeys + 65536 - idx) % 65536)

/-! ### Byte-level read/write lemmas -/

theorem writeByte_same (node : BNode) (p b : Nat) : writeByte node p b p = b % 256 := by
  simp [writeByte]

theorem writeByte_other (node : BNode) (p b q : Nat) (h : q ≠ p) :
    writeByte node p b q = node q := by
  simp [writeByte, h]

theorem readLE_congr : ∀ (k : Nat) (n1 n2 : BNode) (p : Nat),
    (∀ j, j < k → n1 (p + j) = n2 (p + j)) →
    readLE n1 p k = readLE n2 p k := by
  intro k
  induction k with
  | zero => intro n1 n2 p _; rfl
  | succ k ih =>
    intro n1 n2 p h
    have h0 : n1 p = n2 p := by simpa using h 0 (Nat.succ_pos k)
    have ht : readLE n1 (p + 1) k = readLE n2 (p + 1) k := by
      apply ih
      intro j hj
      have hpj : p + 1 + j = p + (j + 1) := by omega
      rw [hpj]
      exact h (j + 1) (by omega)
    simp [readLE, h0, ht]

theorem readLE_lt (node : BNode) (p : Nat) : ∀ k, readLE node p k < 256 ^ k := by
  intro k
  induction k generalizing p with
  | zero => simp [readLE]
  | succ k ih =>
    have h1 : node p % 256 < 256 := Nat.mod_lt _ (by omega)
    have h2 := ih (p + 1)
    rw [pow_succ]
    simp only [readLE]
    omega

theorem writeLE_unchanged : ∀ (k : Nat) (node : BNode) (p v q : Nat),
    (q < p ∨ p + k ≤ q) → writeLE node p v k q = node q := by
  intro k
  induction k with
  | zero => intro node p v q _; rfl
  | succ k ih =>
    intro node p v q hq
    show writeLE (writeByte node p v) (p + 1) (v / 256) k q = node q
    rw [ih _ _ _ _ (by omega)]
    exact writeByte_other _ _ _ _ (by omega)

theorem writeLE_byte : ∀ (k j : Nat) (node : BNode) (p v : Nat), j < k →
    writeLE node p v k (p + j) = v / 256 ^ j % 256 := by
  intro k
  induction k with
  | zero => intro j node p v h; omega
  | succ k ih =>
    intro j node p v hj
    show writeLE (writeByte node p v) (p + 1) (v / 256) k (p + j) = _
    match j with
    | 0 =>
      rw [writeLE_unchanged _ _ _ _ _ (by omega)]
      simpa using writeByte_same node p v
    | j + 1 =>
      have hpj : p + (j + 1) = p + 1 + j := by omega
      rw [hpj, ih j _ _ _ (by omega), Nat.div_div_eq_div_mul]
      rw [pow_succ, mul_comm (256 ^ j) 256, mul_comm 256 (256 ^ j)]

theorem readLE_writeLE : ∀ (k : Nat) (node : BNode) (p v : Nat),
    readLE (writeLE node p v k) p k = v % 256 ^ k := by
  intro k
  induction k with
  | zero => intro node p v; simp [readLE, Nat.mod_one]
  | succ k ih =>
    intro node p v
    show readLE (writeLE (writeByte node p v) (p + 1) (v / 256) k) p (k + 1) = _
    have h0 : writeLE (writeByte node p v) (p + 1) (v / 256) k p = v % 256 := by
      rw [writeLE_unchanged _ _ _ _ _ (by omega)]
      exact writeByte_same node p v
    have ht := ih (writeByte node p v) (p + 1) (v / 256)
    simp only [readLE, h0, ht, Nat.mod_mod]
    rw [pow_succ, mul_comm (256 ^ k) 256, Nat.mod_mul]

theorem writeBytes_unchanged : ∀ (data : List Nat) (node : BNode) (p q : Nat),
    (q < p ∨ p + data.length ≤ q) → writeBytes node p data q = node q := by
  intro data
  induction data with
  | nil => intro node p q _; rfl
  | cons b bs ih =>
    intro node p q hq
    show writeBytes (writeByte node p b) (p + 1) bs q = node q
    rw [ih _ _ _ (by simp at hq ⊢; omega)]
    exact writeByte_other _ _ _ _ (by simp at hq; omega)

theorem writeBytes_byte : ∀ (data : List Nat) (j : Nat) (node : BNode) (p : Nat),
    j < data.length → writeBytes node p data (p + j) = data.getD j 0 % 256 := by
  intro data
  induction data with
  | nil => intro j node p h; simp at h
  | cons b bs ih =>
    intro j node p hj
    show writeBytes (writeByte node p b) (p + 1) bs (p + j) = _
    match j with
    | 0 =>
      rw [writeBytes_unchanged _ _ _ _ (by omega)]
      simpa using writeByte_same node p b
    | j + 1 =>
      have hpj : p + (j + 1) = p + 1 + j := by omega
      rw [hpj, ih j _ _ (by simpa using hj)]
      simp

theorem copyBytes_unchanged_fuel : ∀ (m b e : Nat), e - b ≤ m →
    ∀ (dst : BNode) (p : Nat) (src : BNode) (q : Nat),
    (q < p ∨ p + (e - b) ≤ q) → copyBytes dst p src b e q = dst q := by
  intro m
  induction m with
  | zero =>
    intro b e h dst p src q _
    have hbe : ¬ b < e := by omega
    simp [copyBytes, hbe]
  | succ m ih =>
    intro b e h dst p src q hq
    by_cases hbe : b < e
    · rw [copyBytes]
      simp only [hbe, if_true]
      rw [ih (b + 1) e (by omega) _ _ _ _ (by omega)]
      exact writeByte_other _ _ _ _ (by omega)
    · simp [copyBytes, hbe]

theorem copyBytes_unchanged (b e : Nat) (dst : BNode) (p : Nat) (src : BNode)
    (q : Nat) (hq : q < p ∨ p + (e - b) ≤ q) : copyBytes dst p src b e q = dst q :=
  copyBytes_unchanged_fuel (e - b) b e le_rfl dst p src q hq

theorem copyBytes_byte_fuel : ∀ (m b e : Nat), e - b ≤ m →
    ∀ (dst : BNode) (p : Nat) (src : BNode) (j : Nat), j < e - b →
    copyBytes dst p src b e (p + j) = src (b + j) % 256 := by
  intro m
  induction m with
  | zero => intro b e h dst p src j hj; omega
  | succ m ih =>
    intro b e h dst p src j hj
    have hbe : b < e := by omega
    rw [copyBytes]
    simp only [hbe, if_true]
    match j with
    | 0 =>
      rw [copyBytes_unchanged _ _ _ _ _ _ (by omega)]
      simpa using writeByte_same dst p (src b)
    | j + 1 =>
      have hpj : p + (j + 1) = p + 1 + j := by omega
      have hbj : b + (j + 1) = b + 1 + j := by omega
      rw [hpj, hbj, ih (b + 1) e (by omega) _ _ _ j (by omega)]

theorem copyBytes_byte (b e : Nat) (dst : BNode) (p : Nat) (src : BNode)
    (j : Nat) (hj : j < e - b) : copyBytes dst p src b e (p + j) = src (b + j) % 256 :=
  copyBytes_byte_fuel (e - b) b e le_rfl dst p src j hj

/-! ### Lexicographic comparison lemmas -/

theorem bytesCompare_cons (a b : Nat) (as bs : List Nat) :
    bytesCompare (a :: as) (b :: bs) =
      if a < b then -1 else if b < a then 1 else bytesCompare as bs := rfl

theorem bytesCompare_self : ∀ a : List Nat, bytesCompare a a = 0 := by
  intro a
  induction a with
  | nil => rfl
  | cons x xs ih => simp [bytesCompare_cons, ih]

theorem bytesCompare_eq_zero : ∀ a b : List Nat, bytesCompare a b = 0 → a = b := by
  intro a
  induction a with
  | nil =>
    intro b h
    cases b with
    | nil => rfl
    | cons y ys => simp [bytesCompare] at h
  | cons x xs ih =>
    intro b h
    cases b with
    | nil => simp [bytesCompare] at h
    | cons y ys =>
      rw [bytesCompare_cons] at h
      by_cases h1 : x < y
      · simp [h1] at h
      · by_cases h2 : y < x
        · simp [h1, h2] at h
        · simp [h1, h2] at h
          have hxy : x = y := by omega
          rw [hxy, ih ys h]

theorem bytesCompare_neg : ∀ a b : List Nat, bytesCompare a b = -bytesCompare b a := by
  intro a
  induction a with
  | nil =>
    intro b
    cases b with
    | nil => rfl
    | cons y ys => simp [bytesCompare]
  | cons x xs ih =>
    intro b
    cases b with
    | nil => simp [bytesCompare]
    | cons y ys =>
      rw [bytesCompare_cons, bytesCompare_cons]
      by_cases h1 : x < y
      · have h2 : ¬ y < x := by omega
        simp [h1, h2]
      · by_cases h2 : y < x
        · simp [h1, h2]
        · simp [h1, h2, ih ys]

theorem bytesCompare_trans_neg : ∀ a b c : List Nat,
    bytesCompare a b < 0 → bytesCompare b c < 0 → bytesCompare a c < 0 := by
  intro a
  induction a with
  | nil =>
    intro b c hab hbc
    cases b with
    | nil => simpa using hbc
    | cons y ys =>
      cases c with
      | nil => simp [bytesCompare] at hbc
      | cons z zs => simp [bytesCompare]
  | cons x xs ih =>
    intro b c hab hbc
    cases b with
    | nil => simp [bytesCompare] at hab
    | cons y ys =>
      cases c with
      | nil => simp [bytesCompare] at hbc
      | cons z zs =>
        rw [bytesCompare_cons] at hab hbc ⊢
        by_cases h1 : x < y
        · by_cases h2 : y < z
          · have : x < z := by omega
            simp [this]
          · by_cases h3 : z < y
            · simp [h2, h3] at hbc
            · have : x < z := by omega
              simp [this]
        · by_cases h4 : y < x
          · simp [h1, h4] at hab
          · have hxy : x = y := by omega
            by_cases h2 : y < z
            · have : x < z := by omega
              simp [this]
            · by_cases h3 : z < y
              · simp [h2, h3] at hbc
              · have hyz : y = z := by omega
                have hxz : x = z := by omega
                simp [h1, h4, hxy, hyz, hxz] at hab hbc ⊢
                exact ih ys zs hab hbc

theorem bytesCompare_lt_of_le_of_lt (a b c : List Nat)
    (hab : bytesCompare a b ≤ 0) (hbc : bytesCompare b c < 0) :
    bytesCompare a c < 0 := by
  rcases lt_or_eq_of_le hab with h | h
  · exact bytesCompare_trans_neg a b c h hbc
  · rw [bytesCompare_eq_zero a b h]
    exact hbc

theorem bytesCompare_lt_of_lt_of_le (a b c : List Nat)
    (hab : bytesCompare a b < 0) (hbc : bytesCompare b c ≤ 0) :
    bytesCompare a c < 0 := by
  rcases lt_or_eq_of_le hbc with h | h
  · exact bytesCompare_trans_neg a b c hab h
  · rw [← bytesCompare_eq_zero b c h]
    exact hab

theorem bytesCompare_pos_iff (a b : List Nat) :
    0 < bytesCompare a b ↔ bytesCompare b a < 0 := by
  rw [bytesCompare_neg a b]
  omega

/-! ### Abstract records and their byte encoding -/

/-- One key-value record of a node together with its pointer slot. -/
structure Rec where
  ptr : Nat
  key : List Nat
  val : List Nat

/-- Default record used with `List.getD`. -/
def defRec : Rec := ⟨0, [], []⟩

/-- Well-formed record: everything fits the Go types. -/
abbrev recWF (r : Rec) : Prop :=
  r.ptr < 2 ^ 64 ∧ r.key.length < 65536 ∧ r.val.length < 65536 ∧
  (∀ b ∈ r.key, b < 256) ∧ (∀ b ∈ r.val, b < 256)

/-- Little-endian 2-byte encoding. -/
def u16Bytes (v : Nat) : List Nat := [v % 256, v / 256 % 256]

/-- Encoded size of one record: `klen(2) | vlen(2) | key | val`. -/
def recSize (r : Rec) : Nat := 4 + r.key.length + r.val.length

/-- Byte encoding of one record. -/
def recBytes (r : Rec) : List Nat :=
  u16Bytes r.key.length ++ u16Bytes r.val.length ++ r.key ++ r.val

/-- Total encoded size of the key-value region for a record list. -/
def kvSize (rs : List Rec) : Nat := (rs.map recSize).sum

/-- Byte encoding of the key-value region. -/
def kvBytes (rs : List Rec) : List Nat := (rs.map recBytes).flatten

theorem recBytes_length (r : Rec) : (recBytes r).length = recSize r := by
  simp [recBytes, u16Bytes, recSize]
  omega

theorem kvSize_nil : kvSize [] = 0 := rfl

theorem kvSize_cons (r : Rec) (rs : List Rec) :
    kvSize (r :: rs) = recSize r + kvSize rs := by
  simp [kvSize]

theorem kvSize_append (a b : List Rec) : kvSize (a ++ b) = kvSize a + kvSize b := by
  simp [kvSize]

theorem kvBytes_nil : kvBytes [] = [] := rfl

theorem kvBytes_cons (r : Rec) (rs : List Rec) :
    kvBytes (r :: rs) = recBytes r ++ kvBytes rs := by
  simp [kvBytes]

theorem kvBytes_append (a b : List Rec) :
    kvBytes (a ++ b) = kvBytes a ++ kvBytes b := by
  simp [kvBytes]

theorem kvBytes_length (rs : List Rec) : (kvBytes rs).length = kvSize rs := by
  induction rs with
  | nil => rfl
  | cons r rs ih => simp [kvBytes_cons, kvSize_cons, recBytes_length, ih]

theorem kvSize_take_le (i : Nat) (rs : List Rec) : kvSize (rs.take i) ≤ kvSize rs := by
  conv_rhs => rw [← List.take_append_drop i rs]
  rw [kvSize_append]
  omega

theorem getD_append_left {α : Type} (l1 l2 : List α) (n : Nat) (d : α)
    (h : n < l1.length) : (l1 ++ l2).getD n d = l1.getD n d := by
  induction l1 generalizing n with
  | nil => simp at h
  | cons x xs ih =>
    cases n with
    | zero => rfl
    | succ n => simpa using ih n (by simpa using h)

theorem getD_append_right {α : Type} (l1 l2 : List α) (n : Nat) (d : α) :
    (l1 ++ l2).getD (l1.length + n) d = l2.getD n d := by
  induction l1 with
  | nil => simp
  | cons x xs ih => simpa [Nat.succ_add] using ih

theorem kvSize_take_succ (rs : List Rec) (i : Nat) (h : i < rs.length) :
    kvSize (rs.take (i + 1)) = kvSize (rs.take i) + recSize (rs.getD i defRec) := by
  induction rs generalizing i with
  | nil => simp at h
  | cons r rs ih =>
    cases i with
    | zero => simp [kvSize_cons, kvSize_nil]
    | succ i =>
      simp only [List.take_succ_cons, kvSize_cons, List.getD_cons_succ]
      rw [ih i (by simpa using h)]
      omega

theorem kvSize_take_mono (rs : List Rec) (i j : Nat) (h : i ≤ j) :
    kvSize (rs.take i) ≤ kvSize (rs.take j) := by
  have h1 : rs.take i = (rs.take j).take i := by
    rw [List.take_take, Nat.min_eq_left h]
  rw [h1]
  exact kvSize_take_le i (rs.take j)

/-! ### The construction invariant -/

/-- Invariant of a node buffer whose header announces `total` keys and whose
first `rs.length` records have been written left-to-right: the header fields,
the written pointer slots, the written offset slots and the written key-value
bytes all hold the encoding of `rs`. -/
structure BuildState (node : BNode) (btype total : Nat) (rs : List Rec) : Prop where
  hlen : rs.length ≤ total
  hsize : HEADER + 10 * total + kvSize rs ≤ 65535
  htype : node.btype = btype
  hnkeys : node.nkeys = total
  hwf : ∀ r ∈ rs, recWF r
  hoff : ∀ i, i ≤ rs.length → node.getOffset i = some (kvSize (rs.take i))
  hptr : ∀ i, i < rs.length → node.getPtr i = some ((rs.getD i defRec).ptr)
  hkv : ∀ k, k < kvSize rs →
    node (HEADER + 10 * total + k) % 256 = (kvBytes rs).getD k 0

/-- A fully built node: header key count equals the number of records. -/
def Represents (node : BNode) (btype : Nat) (rs : List Rec) : Prop :=
  BuildState node btype rs.length rs

theorem getOffset_zero (node : BNode) : node.getOffset 0 = some 0 := rfl

theorem getOffset_compute (node : BNode) (i : Nat) (h1 : 1 ≤ i)
    (h2 : i ≤ node.nkeys) (hb : HEADER + 8 * node.nkeys + 2 * (i - 1) + 1 < 65536) :
    node.getOffset i = some (readU16 node (HEADER + 8 * node.nkeys + 2 * (i - 1))) := by
  have hi0 : ¬ i = 0 := by omega
  have hg : ¬ (i < 1 ∨ node.nkeys < i) := by omega
  have hm : (HEADER + 8 * node.nkeys + 2 * (i - 1)) % 65536 =
      HEADER + 8 * node.nkeys + 2 * (i - 1) := Nat.mod_eq_of_lt (by omega)
  unfold BNode.getOffset offsetPos
  rw [if_neg hi0, if_neg hg, Option.map_some', hm]

theorem setOffset_compute (node : BNode) (i v : Nat) (h1 : 1 ≤ i)
    (h2 : i ≤ node.nkeys) (hb : HEADER + 8 * node.nkeys + 2 * (i - 1) + 1 < 65536) :
    node.setOffset i v = some (writeU16 node (HEADER + 8 * node.nkeys + 2 * (i - 1)) v) := by
  have hg : ¬ (i < 1 ∨ node.nkeys < i) := by omega
  have hm : (HEADER + 8 * node.nkeys + 2 * (i - 1)) % 65536 =
      HEADER + 8 * node.nkeys + 2 * (i - 1) := Nat.mod_eq_of_lt (by omega)
  unfold BNode.setOffset offsetPos
  rw [if_neg hg, Option.map_some', hm]

theorem getPtr_compute (node : BNode) (idx : Nat) (h : idx < node.nkeys)
    (hb : HEADER + 8 * idx < 65536) :
    node.getPtr idx = some (readU64 node (HEADER + 8 * idx)) := by
  have hg : ¬ node.nkeys ≤ idx := by omega
  have hm : (HEADER + 8 * idx) % 65536 = HEADER + 8 * idx := Nat.mod_eq_of_lt hb
  simp [BNode.getPtr, hg, hm]

theorem setPtr_compute (node : BNode) (idx v : Nat) (h : idx < node.nkeys)
    (hb : HEADER + 8 * idx < 65536) :
    node.setPtr idx v = some (writeU64 node (HEADER + 8 * idx) v) := by
  have hg : ¬ node.nkeys ≤ idx := by omega
  have hm : (HEADER + 8 * idx) % 65536 = HEADER + 8 * idx := Nat.mod_eq_of_lt hb
  simp [BNode.setPtr, hg, hm]

theorem BuildState.kvPos_eq {node : BNode} {t total : Nat} {rs : List Rec}
    (hb : BuildState node t total rs) (i : Nat) (hi : i ≤ rs.length) :
    node.kvPos i = some (HEADER + 10 * total + kvSize (rs.take i)) := by
  have hlen := hb.hlen
  have hsz := hb.hsize
  have hg : ¬ node.nkeys < i := by rw [hb.hnkeys]; omega
  have hoff := hb.hoff i hi
  have hle := kvSize_take_le i rs
  have hm : (HEADER + 8 * node.nkeys + 2 * node.nkeys + kvSize (rs.take i)) % 65536 =
      HEADER + 8 * node.nkeys + 2 * node.nkeys + kvSize (rs.take i) := by
    apply Nat.mod_eq_of_lt
    rw [hb.hnkeys]
    omega
  unfold BNode.kvPos
  rw [if_neg hg, hoff, Option.map_some', hm, hb.hnkeys]
  congr 1
  omega

theorem Represents.nbytes_eq {node : BNode} {t : Nat} {rs : List Rec}
    (hr : Represents node t rs) :
    node.nbytes = some (HEADER + 10 * rs.length + kvSize rs) := by
  have h := BuildState.kvPos_eq hr rs.length le_rfl
  rw [List.take_length] at h
  unfold BNode.nbytes
  have hnk : node.nkeys = rs.length := hr.hnkeys
  rw [hnk]
  exact h

/-- Frame rule: any buffer agreeing with `node` on the header, the written
pointer slots, the written offset slots and the written key-value bytes
satisfies the same `BuildState`. -/
theorem BuildState_congr {node : BNode} {t total : Nat} {rs : List Rec}
    (hb : BuildState node t total rs) (nd : BNode)
    (hagree : ∀ q,
      (q < HEADER + 8 * rs.length ∨
       (HEADER + 8 * total ≤ q ∧ q < HEADER + 8 * total + 2 * rs.length) ∨
       (HEADER + 10 * total ≤ q ∧ q < HEADER + 10 * total + kvSize rs)) →
      nd q = node q) :
    BuildState nd t total rs := by
  have hnk : nd.nkeys = total := by
    unfold BNode.nkeys readU16
    rw [readLE_congr 2 nd node 2 (fun j hj => hagree _ (by simp [HEADER]; omega))]
    exact hb.hnkeys
  refine ⟨hb.hlen, hb.hsize, ?_, hnk, hb.hwf, ?_, ?_, ?_⟩
  · unfold BNode.btype readU16
    rw [readLE_congr 2 nd node 0 (fun j hj => hagree _ (by simp [HEADER]; omega))]
    exact hb.htype
  · intro i hi
    match i with
    | 0 => simp [getOffset_zero, kvSize_nil]
    | i + 1 =>
      have hsz := hb.hsize
      have hlen := hb.hlen
      have hb1 : HEADER + 8 * total + 2 * (i + 1 - 1) + 1 < 65536 := by
        simp only [HEADER] at hsz ⊢; omega
      have hc1 := getOffset_compute nd (i + 1) (by omega)
        (by rw [hnk]; omega) (by rw [hnk]; exact hb1)
      have hc2 := getOffset_compute node (i + 1) (by omega)
        (by rw [hb.hnkeys]; omega) (by rw [hb.hnkeys]; exact hb1)
      rw [hnk] at hc1
      rw [hb.hnkeys] at hc2
      have hread : readU16 nd (HEADER + 8 * total + 2 * (i + 1 - 1)) =
          readU16 node (HEADER + 8 * total + 2 * (i + 1 - 1)) := by
        unfold readU16
        refine readLE_congr 2 nd node _ (fun j hj => hagree _ ?_)
        right; left
        simp only [HEADER] at *
        omega
      rw [hc1, hread, ← hc2]
      exact hb.hoff (i + 1) hi
  · intro i hi
    have hsz := hb.hsize
    have hlen := hb.hlen
    have hb1 : HEADER + 8 * i < 65536 := by simp only [HEADER] at hsz ⊢; omega
    have hc1 := getPtr_compute nd i (by rw [hnk]; omega) hb1
    have hc2 := getPtr_compute node i (by rw [hb.hnkeys]; omega) hb1
    have hread : readU64 nd (HEADER + 8 * i) = readU64 node (HEADER + 8 * i) := by
      unfold readU64
      refine readLE_congr 8 nd node _ (fun j hj => hagree _ ?_)
      left
      simp only [HEADER] at *
      omega
    rw [hc1, hread, ← hc2]
    exact hb.hptr i hi
  · intro k hk
    rw [hagree _ (by right; right; omega)]
    exact hb.hkv k hk

/-! ### Reading records back out of a built node -/

theorem readU16_eq (node : BNode) (p : Nat) :
    readU16 node p = node p % 256 + 256 * (node (p + 1) % 256) := by
  simp [readU16, readLE]

theorem u16_roundtrip (v : Nat) (h : v < 65536) :
    v % 256 + 256 * (v / 256 % 256) = v := by
  have h1 : v % (256 * 256) = v % 256 + 256 * (v / 256 % 256) := @Nat.mod_mul 256 256 v
  have h2 : v % (256 * 256) = v := Nat.mod_eq_of_lt (by omega)
  omega

theorem getD_eq_getElem {α : Type} (l : List α) (i : Nat) (d : α) (h : i < l.length) :
    l.getD i d = l[i] := by
  rw [List.getD_eq_getElem?_getD, List.getElem?_eq_getElem h]
  rfl

theorem getD_mem {α : Type} (l : List α) (i : Nat) (d : α) (h : i < l.length) :
    l.getD i d ∈ l := by
  rw [getD_eq_getElem l i d h]
  exact List.getElem_mem h

theorem drop_eq_getD_cons {α : Type} (d : α) : ∀ (l : List α) (i : Nat), i < l.length →
    l.drop i = l.getD i d :: l.drop (i + 1) := by
  intro l
  induction l with
  | nil => intro i h; simp at h
  | cons x xs ih =>
    intro i h
    cases i with
    | zero => simp
    | succ i => simpa using ih i (by simpa using h)

theorem kvBytes_getD (rs : List Rec) (i : Nat) (hi : i < rs.length) (j : Nat)
    (hj : j < recSize (rs.getD i defRec)) :
    (kvBytes rs).getD (kvSize (rs.take i) + j) 0 = (recBytes (rs.getD i defRec)).getD j 0 := by
  have h1 : kvBytes rs = kvBytes (rs.take i) ++ kvBytes (rs.drop i) := by
    rw [← kvBytes_append, List.take_append_drop]
  have h2 : (kvBytes (rs.take i)).length = kvSize (rs.take i) := kvBytes_length _
  rw [h1, ← h2, getD_append_right]
  rw [drop_eq_getD_cons defRec rs i hi, kvBytes_cons]
  exact getD_append_left _ _ _ _ (by rw [recBytes_length]; exact hj)

theorem recBytes_getD_klen0 (r : Rec) : (recBytes r).getD 0 0 = r.key.length % 256 := rfl

theorem recBytes_getD_klen1 (r : Rec) : (recBytes r).getD 1 0 = r.key.length / 256 % 256 := rfl

theorem recBytes_getD_vlen0 (r : Rec) : (recBytes r).getD 2 0 = r.val.length % 256 := rfl

theorem recBytes_getD_vlen1 (r : Rec) : (recBytes r).getD 3 0 = r.val.length / 256 % 256 := rfl

theorem recBytes_getD_key (r : Rec) (j : Nat) (hj : j < r.key.length) :
    (recBytes r).getD (4 + j) 0 = r.key.getD j 0 := by
  have h1 : recBytes r =
      [r.key.length % 256, r.key.length / 256 % 256,
       r.val.length % 256, r.val.length / 256 % 256] ++ (r.key ++ r.val) := by
    simp [recBytes, u16Bytes]
  have h2 := getD_append_right
    [r.key.length % 256, r.key.length / 256 % 256,
     r.val.length % 256, r.val.length / 256 % 256] (r.key ++ r.val) j 0
  simp only [List.length_cons, List.length_nil, Nat.zero_add] at h2
  rw [h1]
  rw [show (4 : Nat) + j = 0 + 1 + 1 + 1 + 1 + j from by omega] at *
  rw [h2]
  exact getD_append_left _ _ _ _ hj

theorem recBytes_getD_val (r : Rec) (j : Nat) (hj : j < r.val.length) :
    (recBytes r).getD (4 + (r.key.length + j)) 0 = r.val.getD j 0 := by
  have h1 : recBytes r =
      [r.key.length % 256, r.key.length / 256 % 256,
       r.val.length % 256, r.val.length / 256 % 256] ++ (r.key ++ r.val) := by
    simp [recBytes, u16Bytes]
  have h2 := getD_append_right
    [r.key.length % 256, r.key.length / 256 % 256,
     r.val.length % 256, r.val.length / 256 % 256] (r.key ++ r.val) (r.key.length + j) 0
  simp only [List.length_cons, List.length_nil, Nat.zero_add] at h2
  rw [h1]
  rw [show (4 : Nat) + (r.key.length + j) = 0 + 1 + 1 + 1 + 1 + (r.key.length + j) from by omega]
  rw [h2, getD_append_right]

theorem BuildState.rec_end_le {node : BNode} {t total : Nat} {rs : List Rec}
    (hb : BuildState node t total rs) (i : Nat) (hi : i < rs.length) :
    kvSize (rs.take i) + recSize (rs.getD i defRec) ≤ kvSize rs := by
  have h1 := kvSize_take_succ rs i hi
  have h2 := kvSize_take_le (i + 1) rs
  omega

theorem BuildState.recByte {node : BNode} {t total : Nat} {rs : List Rec}
    (hb : BuildState node t total rs) (i : Nat) (hi : i < rs.length) (j : Nat)
    (hj : j < recSize (rs.getD i defRec)) :
    node (HEADER + 10 * total + kvSize (rs.take i) + j) % 256 =
      (recBytes (rs.getD i defRec)).getD j 0 := by
  have h1 : HEADER + 10 * total + kvSize (rs.take i) + j =
      HEADER + 10 * total + (kvSize (rs.take i) + j) := by omega
  have h2 : kvSize (rs.take i) + j < kvSize rs := by
    have := hb.rec_end_le i hi
    omega
  rw [h1, hb.hkv _ h2, kvBytes_getD rs i hi j hj]

theorem BuildState.klen_eq {node : BNode} {t total : Nat} {rs : List Rec}
    (hb : BuildState node t total rs) (i : Nat) (hi : i < rs.length) :
    readU16 node (HEADER + 10 * total + kvSize (rs.take i)) =
      (rs.getD i defRec).key.length := by
  have hwf := hb.hwf _ (getD_mem rs i defRec hi)
  have e0 := hb.recByte i hi 0 (by simp only [recSize]; omega)
  have e1 := hb.recByte i hi 1 (by simp only [recSize]; omega)
  rw [Nat.add_zero] at e0
  rw [readU16_eq, e0, e1, recBytes_getD_klen0, recBytes_getD_klen1]
  exact u16_roundtrip _ hwf.2.1

theorem BuildState.vlen_eq {node : BNode} {t total : Nat} {rs : List Rec}
    (hb : BuildState node t total rs) (i : Nat) (hi : i < rs.length) :
    readU16 node (HEADER + 10 * total + kvSize (rs.take i) + 2) =
      (rs.getD i defRec).val.length := by
  have hwf := hb.hwf _ (getD_mem rs i defRec hi)
  have e0 := hb.recByte i hi 2 (by simp only [recSize]; omega)
  have e1 := hb.recByte i hi 3 (by simp only [recSize]; omega)
  rw [readU16_eq, show HEADER + 10 * total + kvSize (rs.take i) + 2 + 1 =
      HEADER + 10 * total + kvSize (rs.take i) + 3 from by omega,
    e0, e1, recBytes_getD_vlen0, recBytes_getD_vlen1]
  exact u16_roundtrip _ hwf.2.2.1

theorem BuildState.getKey_eq {node : BNode} {t total : Nat} {rs : List Rec}
    (hb : BuildState node t total rs) (i : Nat) (hi : i < rs.length) :
    node.getKey i = some ((rs.getD i defRec).key) := by
  have hlen := hb.hlen
  have hsz := hb.hsize
  have hend := hb.rec_end_le i hi
  have hg : ¬ node.nkeys ≤ i := by rw [hb.hnkeys]; omega
  have hkvpos := BuildState.kvPos_eq hb i (le_of_lt hi)
  have hklen := hb.klen_eq i hi
  unfold BNode.getKey
  rw [if_neg hg, hkvpos, Option.map_some']
  show some ((List.range (readU16 node (HEADER + 10 * total + kvSize (rs.take i)))).map
    (fun j => node ((HEADER + 10 * total + kvSize (rs.take i) + 4) % 65536 + j) % 256)) = _
  rw [hklen]
  have hmod : (HEADER + 10 * total + kvSize (rs.take i) + 4) % 65536 =
      HEADER + 10 * total + kvSize (rs.take i) + 4 := by
    apply Nat.mod_eq_of_lt
    simp only [recSize] at hend
    omega
  rw [hmod]
  congr 1
  apply List.ext_getElem
  · simp
  · intro j h1 h2
    simp only [List.getElem_map, List.getElem_range]
    have hlt : j < (rs.getD i defRec).key.length := by simpa using h1
    have hrb := hb.recByte i hi (4 + j) (by simp only [recSize]; omega)
    rw [show HEADER + 10 * total + kvSize (rs.take i) + (4 + j) =
        HEADER + 10 * total + kvSize (rs.take i) + 4 + j from by omega] at hrb
    rw [hrb, recBytes_getD_key _ j hlt, getD_eq_getElem _ j 0 hlt]

theorem BuildState.getVal_eq {node : BNode} {t total : Nat} {rs : List Rec}
    (hb : BuildState node t total rs) (i : Nat) (hi : i < rs.length) :
    node.getVal i = some ((rs.getD i defRec).val) := by
  have hlen := hb.hlen
  have hsz := hb.hsize
  have hend := hb.rec_end_le i hi
  have hg : ¬ node.nkeys ≤ i := by rw [hb.hnkeys]; omega
  have hkvpos := BuildState.kvPos_eq hb i (le_of_lt hi)
  have hklen := hb.klen_eq i hi
  unfold BNode.getVal
  rw [if_neg hg, hkvpos, Option.map_some']
  have hmod2 : (HEADER + 10 * total + kvSize (rs.take i) + 2) % 65536 =
      HEADER + 10 * total + kvSize (rs.take i) + 2 := by
    apply Nat.mod_eq_of_lt
    simp only [recSize] at hend
    omega
  show some ((List.range (readU16 node
      ((HEADER + 10 * total + kvSize (rs.take i) + 2) % 65536))).map
    (fun j => node ((HEADER + 10 * total + kvSize (rs.take i) + 4 +
      readU16 node (HEADER + 10 * total + kvSize (rs.take i))) % 65536 + j) % 256)) = _
  rw [hmod2, hb.vlen_eq i hi, hklen]
  have hmod4 : (HEADER + 10 * total + kvSize (rs.take i) + 4 +
      (rs.getD i defRec).key.length) % 65536 =
      HEADER + 10 * total + kvSize (rs.take i) + 4 + (rs.getD i defRec).key.length := by
    apply Nat.mod_eq_of_lt
    simp only [recSize] at hend
    omega
  rw [hmod4]
  congr 1
  apply List.ext_getElem
  · simp
  · intro j h1 h2
    simp only [List.getElem_map, List.getElem_range]
    have hlt : j < (rs.getD i defRec).val.length := by simpa using h1
    have hrb := hb.recByte i hi (4 + ((rs.getD i defRec).key.length + j))
      (by simp only [recSize]; omega)
    rw [show HEADER + 10 * total + kvSize (rs.take i) +
        (4 + ((rs.getD i defRec).key.length + j)) =
        HEADER + 10 * total + kvSize (rs.take i) + 4 +
          (rs.getD i defRec).key.length + j from by omega] at hrb
    rw [hrb, recBytes_getD_val _ j hlt, getD_eq_getElem _ j 0 hlt]

/-! ### The append-record step -/

theorem kvSize_singleton (r : Rec) : kvSize [r] = recSize r := by simp [kvSize]

theorem kvBytes_singleton (r : Rec) : kvBytes [r] = recBytes r := by simp [kvBytes]

theorem take_append_le {α : Type} (l1 l2 : List α) (i : Nat) (h : i ≤ l1.length) :
    (l1 ++ l2).take i = l1.take i := by
  induction l1 generalizing i with
  | nil =>
    have h0 : i = 0 := by simpa using h
    simp [h0]
  | cons x xs ih =>
    cases i with
    | zero => simp
    | succ i =>
      simp only [List.cons_append, List.take_succ_cons]
      rw [ih i (by simpa using h)]

theorem nodeAppendKV_step {node : BNode} {t total : Nat} {rs : List Rec}
    (hb : BuildState node t total rs) (hfr : rs.length < total)
    (ptr : Nat) (key val : List Nat)
    (hptr64 : ptr < 2 ^ 64) (hkl : key.length < 65536) (hvl : val.length < 65536)
    (hkb : ∀ b ∈ key, b < 256) (hvb : ∀ b ∈ val, b < 256)
    (hroom : HEADER + 10 * total + kvSize rs + (4 + key.length + val.length) ≤ 65535) :
    ∃ nd, nodeAppendKV node rs.length ptr key val = some nd ∧
      BuildState nd t total (rs ++ [⟨ptr, key, val⟩]) := by
  have hlen := hb.hlen
  have hsz := hb.hsize
  have hH : HEADER = 4 := rfl
  -- step 1: setPtr writes the pointer slot
  have hsp := setPtr_compute node rs.length ptr (by rw [hb.hnkeys]; omega) (by omega)
  have hb1 : BuildState (writeU64 node (HEADER + 8 * rs.length) ptr) t total rs := by
    refine BuildState_congr hb _ (fun q hq => ?_)
    exact writeLE_unchanged 8 node _ ptr q (by omega)
  -- step 2: kvPos resolves to the end of the written kv region
  have hkvpos := BuildState.kvPos_eq hb1 rs.length le_rfl
  rw [List.take_length] at hkvpos
  -- the five successive writes
  set n1 := writeU64 node (HEADER + 8 * rs.length) ptr with hn1
  set pos := HEADER + 10 * total + kvSize rs with hposdef
  set new2 := writeU16 n1 pos key.length with hnew2
  set new3 := writeU16 new2 (pos + 2) val.length with hnew3
  set new4 := writeBytes new3 (pos + 4) key with hnew4
  set new5 := writeBytes new4 (pos + 4 + key.length) val with hnew5
  have h54 : ∀ q, q < pos + 4 + key.length ∨ pos + 4 + key.length + val.length ≤ q →
      new5 q = new4 q := by
    intro q hq
    exact writeBytes_unchanged val new4 _ q (by omega)
  have h43 : ∀ q, q < pos + 4 ∨ pos + 4 + key.length ≤ q → new4 q = new3 q := by
    intro q hq
    exact writeBytes_unchanged key new3 _ q (by omega)
  have h32 : ∀ q, q < pos + 2 ∨ pos + 4 ≤ q → new3 q = new2 q := by
    intro q hq
    exact writeLE_unchanged 2 new2 _ val.length q (by omega)
  have h21 : ∀ q, q < pos ∨ pos + 2 ≤ q → new2 q = n1 q := by
    intro q hq
    exact writeLE_unchanged 2 n1 _ key.length q (by omega)
  have hlow : ∀ q, q < pos → new5 q = n1 q := by
    intro q hq
    rw [h54 q (by omega), h43 q (by omega), h32 q (by omega), h21 q (by omega)]
  have hb5 : BuildState new5 t total rs := by
    refine BuildState_congr hb1 _ (fun q hq => ?_)
    apply hlow
    omega
  have hoff5 : new5.getOffset rs.length = some (kvSize rs) := by
    have h := hb5.hoff rs.length le_rfl
    rwa [List.take_length] at h
  -- the final setOffset
  have hmodi : (rs.length + 1) % 65536 = rs.length + 1 := Nat.mod_eq_of_lt (by omega)
  have hmodv : (kvSize rs + 4 + (key.length + val.length)) % 65536 =
      kvSize rs + 4 + (key.length + val.length) := Nat.mod_eq_of_lt (by omega)
  have hso := setOffset_compute new5 (rs.length + 1)
    (kvSize rs + 4 + (key.length + val.length)) (by omega)
    (by rw [hb5.hnkeys]; omega) (by rw [hb5.hnkeys]; omega)
  rw [hb5.hnkeys] at hso
  have hsub : rs.length + 1 - 1 = rs.length := by omega
  rw [hsub] at hso
  set slotOff := HEADER + 8 * total + 2 * rs.length with hslot
  set vOff := kvSize rs + 4 + (key.length + val.length) with hvoff
  set nd := writeU16 new5 slotOff vOff with hnd
  refine ⟨nd, ?_, ?_⟩
  · show nodeAppendKV node rs.length ptr key val = some nd
    unfold nodeAppendKV
    rw [hsp]
    show (match n1.kvPos rs.length with
      | none => none
      | some p =>
        let m2 := writeU16 n1 p key.length
        let m3 := writeU16 m2 ((p + 2) % 65536) val.length
        let m4 := writeBytes m3 ((p + 4) % 65536) key
        let m5 := writeBytes m4 ((p + 4 + key.length) % 65536) val
        match m5.getOffset rs.length with
        | none => none
        | some off =>
          m5.setOffset ((rs.length + 1) % 65536)
            ((off + 4 + (key.length + val.length)) % 65536)) = some nd
    rw [hkvpos]
    show (let m2 := writeU16 n1 pos key.length
      let m3 := writeU16 m2 ((pos + 2) % 65536) val.length
      let m4 := writeBytes m3 ((pos + 4) % 65536) key
      let m5 := writeBytes m4 ((pos + 4 + key.length) % 65536) val
      match m5.getOffset rs.length with
      | none => none
      | some off =>
        m5.setOffset ((rs.length + 1) % 65536)
          ((off + 4 + (key.length + val.length)) % 65536)) = some nd
    have hm2 : (pos + 2) % 65536 = pos + 2 := Nat.mod_eq_of_lt (by omega)
    have hm4 : (pos + 4) % 65536 = pos + 4 := Nat.mod_eq_of_lt (by omega)
    have hm4k : (pos + 4 + key.length) % 65536 = pos + 4 + key.length :=
      Nat.mod_eq_of_lt (by omega)
    simp only [hm2, hm4, hm4k]
    show (match new5.getOffset rs.length with
      | none => none
      | some off =>
        new5.setOffset ((rs.length + 1) % 65536)
          ((off + 4 + (key.length + val.length)) % 65536)) = some nd
    rw [hoff5]
    show new5.setOffset ((rs.length + 1) % 65536)
      ((kvSize rs + 4 + (key.length + val.length)) % 65536) = some nd
    rw [hmodi, hmodv, hso]
  · -- the extended BuildState
    have hkvlen : kvSize (rs ++ [(⟨ptr, key, val⟩ : Rec)]) =
        kvSize rs + (4 + key.length + val.length) := by
      rw [kvSize_append, kvSize_singleton]
      simp [recSize]
    have hndq : ∀ q, q < slotOff ∨ slotOff + 2 ≤ q → nd q = new5 q := by
      intro q hq
      exact writeLE_unchanged 2 new5 _ vOff q (by omega)
    refine ⟨by simp; omega, by rw [hkvlen]; omega, ?_, ?_, ?_, ?_, ?_, ?_⟩
    · -- btype
      have : nd.btype = new5.btype := by
        unfold BNode.btype readU16
        exact readLE_congr 2 nd new5 0 (fun j hj => hndq _ (by omega))
      rw [this, hb5.htype]
    · -- nkeys
      have : nd.nkeys = new5.nkeys := by
        unfold BNode.nkeys readU16
        exact readLE_congr 2 nd new5 2 (fun j hj => hndq _ (by omega))
      rw [this, hb5.hnkeys]
    · -- recWF
      intro r hr
      rcases List.mem_append.mp hr with h | h
      · exact hb.hwf r h
      · have : r = ⟨ptr, key, val⟩ := by simpa using h
        rw [this]
        exact ⟨hptr64, hkl, hvl, hkb, hvb⟩
    · -- offsets
      intro i hi
      have hnd_nkeys : nd.nkeys = total := by
        have : nd.nkeys = new5.nkeys := by
          unfold BNode.nkeys readU16
          exact readLE_congr 2 nd new5 2 (fun j hj => hndq _ (by omega))
        rw [this, hb5.hnkeys]
      simp only [List.length_append, List.length_cons, List.length_nil] at hi
      rcases Nat.eq_zero_or_pos i with hi0 | hipos
      · subst hi0
        simp [getOffset_zero, kvSize_nil]
      · by_cases hic : i ≤ rs.length
        · -- an old offset slot, untouched
          have hc1 := getOffset_compute nd i hipos
            (by rw [hnd_nkeys]; omega) (by rw [hnd_nkeys]; omega)
          have hc2 := getOffset_compute new5 i hipos
            (by rw [hb5.hnkeys]; omega) (by rw [hb5.hnkeys]; omega)
          rw [hnd_nkeys] at hc1
          rw [hb5.hnkeys] at hc2
          have hread : readU16 nd (HEADER + 8 * total + 2 * (i - 1)) =
              readU16 new5 (HEADER + 8 * total + 2 * (i - 1)) := by
            unfold readU16
            exact readLE_congr 2 nd new5 _ (fun j hj => hndq _ (by omega))
          rw [hc1, hread, ← hc2]
          rw [take_append_le rs [⟨ptr, key, val⟩] i hic]
          exact hb5.hoff i hic
        · -- the freshly written offset slot rs.length + 1
          have hieq : i = rs.length + 1 := by omega
          subst hieq
          have hc1 := getOffset_compute nd (rs.length + 1) (by omega)
            (by rw [hnd_nkeys]; omega) (by rw [hnd_nkeys]; omega)
          rw [hnd_nkeys, hsub] at hc1
          have hv : readU16 nd (HEADER + 8 * total + 2 * rs.length) = vOff := by
            have h16 : readU16 nd slotOff = vOff % 65536 := by
              unfold readU16
              show readLE (writeLE new5 slotOff vOff 2) slotOff 2 = vOff % 65536
              rw [readLE_writeLE]
              norm_num
            rw [hslot] at h16
            rw [h16, hmodv]
          rw [hc1, hv]
          have htake : (rs ++ [(⟨ptr, key, val⟩ : Rec)]).take (rs.length + 1) =
              rs ++ [⟨ptr, key, val⟩] := by
            apply List.take_of_length_le
            simp
          rw [htake, hkvlen, hvoff]
          congr 1
          omega
    · -- pointers
      intro i hi
      have hnd_nkeys : nd.nkeys = total := by
        have : nd.nkeys = new5.nkeys := by
          unfold BNode.nkeys readU16
          exact readLE_congr 2 nd new5 2 (fun j hj => hndq _ (by omega))
        rw [this, hb5.hnkeys]
      simp only [List.length_append, List.length_cons, List.length_nil] at hi
      by_cases hic : i < rs.length
      · have hc1 := getPtr_compute nd i (by rw [hnd_nkeys]; omega) (by omega)
        have hc2 := getPtr_compute new5 i (by rw [hb5.hnkeys]; omega) (by omega)
        have hread : readU64 nd (HEADER + 8 * i) = readU64 new5 (HEADER + 8 * i) := by
          unfold readU64
          exact readLE_congr 8 nd new5 _ (fun j hj => hndq _ (by omega))
        rw [hc1, hread, ← hc2]
        rw [getD_append_left rs [⟨ptr, key, val⟩] i defRec hic]
        exact hb5.hptr i hic
      · have hieq : i = rs.length := by omega
        subst hieq
        have hc1 := getPtr_compute nd rs.length (by rw [hnd_nkeys]; omega) (by omega)
        rw [hc1]
        have hchain : ∀ j, j < 8 → nd (HEADER + 8 * rs.length + j) =
            n1 (HEADER + 8 * rs.length + j) := by
          intro j hj
          rw [hndq _ (by omega), hlow _ (by omega)]
        have : readU64 nd (HEADER + 8 * rs.length) = readU64 n1 (HEADER + 8 * rs.length) := by
          unfold readU64
          exact readLE_congr 8 nd n1 _ hchain
        rw [this]
        have hval : readU64 n1 (HEADER + 8 * rs.length) = ptr := by
          unfold readU64
          show readLE (writeLE node (HEADER + 8 * rs.length) ptr 8) _ 8 = ptr
          rw [readLE_writeLE]
          have h64 : (256 : Nat) ^ 8 = 2 ^ 64 := by norm_num
          rw [h64]
          exact Nat.mod_eq_of_lt hptr64
        rw [hval]
        have hget : (rs ++ [(⟨ptr, key, val⟩ : Rec)]).getD rs.length defRec =
            ⟨ptr, key, val⟩ := by
          have := getD_append_right rs [(⟨ptr, key, val⟩ : Rec)] 0 defRec
          simpa using this
        rw [hget]
    · -- kv bytes
      intro k hk
      rw [hkvlen] at hk
      have hndk : ∀ q, HEADER + 10 * total ≤ q → nd q = new5 q := by
        intro q hq
        exact hndq _ (by omega)
      rw [hndk _ (by omega)]
      by_cases hkc : k < kvSize rs
      · -- an old byte
        rw [hlow _ (by omega)]
        have h := hb.hkv k hkc
        rw [hn1] at *
        have hsame : writeU64 node (HEADER + 8 * rs.length) ptr (HEADER + 10 * total + k) =
            node (HEADER + 10 * total + k) := by
          exact writeLE_unchanged 8 node _ ptr _ (by omega)
        rw [hsame, h]
        rw [kvBytes_append, kvBytes_singleton]
        rw [getD_append_left _ _ _ _ (by rw [kvBytes_length]; omega)]
      · -- a byte of the new record
        obtain ⟨j, hjk⟩ : ∃ j, k = kvSize rs + j := ⟨k - kvSize rs, by omega⟩
        subst hjk
        have hjlt : j < 4 + key.length + val.length := by omega
        have hpq : HEADER + 10 * total + (kvSize rs + j) = pos + j := by omega
        rw [hpq]
        have hrhs : (kvBytes (rs ++ [(⟨ptr, key, val⟩ : Rec)])).getD (kvSize rs + j) 0 =
            (recBytes ⟨ptr, key, val⟩).getD j 0 := by
          rw [kvBytes_append, kvBytes_singleton]
          have hkk : kvSize rs + j = (kvBytes rs).length + j := by rw [kvBytes_length]
          rw [hkk, getD_append_right]
        rw [hrhs]
        obtain h0 | h1 | h2 | h3 | h4up : j = 0 ∨ j = 1 ∨ j = 2 ∨ j = 3 ∨ 4 ≤ j := by omega
        · subst h0
          rw [h54 _ (by omega), h43 _ (by omega), h32 _ (by omega)]
          have hby : new2 (pos + 0) = key.length / 256 ^ 0 % 256 := writeLE_byte 2 0 n1 pos _ (by omega)
          rw [hby, recBytes_getD_klen0]
          simp [Nat.mod_mod]
        · subst h1
          rw [h54 _ (by omega), h43 _ (by omega), h32 _ (by omega)]
          have hby : new2 (pos + 1) = key.length / 256 ^ 1 % 256 := writeLE_byte 2 1 n1 pos _ (by omega)
          rw [hby, recBytes_getD_klen1]
          simp [Nat.mod_mod, pow_one]
        · subst h2
          rw [h54 _ (by omega), h43 _ (by omega)]
          have hby : new3 (pos + 2 + 0) = val.length / 256 ^ 0 % 256 :=
            writeLE_byte 2 0 new2 (pos + 2) _ (by omega)
          rw [show pos + 2 = pos + 2 + 0 from by omega, hby, recBytes_getD_vlen0]
          simp [Nat.mod_mod]
        · subst h3
          rw [h54 _ (by omega), h43 _ (by omega)]
          have hby : new3 (pos + 2 + 1) = val.length / 256 ^ 1 % 256 :=
            writeLE_byte 2 1 new2 (pos + 2) _ (by omega)
          rw [show pos + 3 = pos + 2 + 1 from by omega, hby, recBytes_getD_vlen1]
          simp [Nat.mod_mod, pow_one]
        · by_cases hkey : j < 4 + key.length
          · -- key byte
            have hj4 : j - 4 < key.length := by omega
            rw [h54 _ (by omega)]
            have : new4 (pos + 4 + (j - 4)) = key.getD (j - 4) 0 % 256 :=
              writeBytes_byte key (j - 4) new3 (pos + 4) hj4
            rw [show pos + j = pos + 4 + (j - 4) from by omega, this]
            have hb256 : key.getD (j - 4) 0 < 256 := by
              have := hkb (key.getD (j - 4) 0) (getD_mem key (j - 4) 0 hj4)
              exact this
            rw [Nat.mod_mod, Nat.mod_eq_of_lt hb256]
            have := recBytes_getD_key ⟨ptr, key, val⟩ (j - 4) hj4
            rw [show (4 : Nat) + (j - 4) = j from by omega] at this
            rw [this]
          · -- val byte
            have hj4 : j - 4 - key.length < val.length := by omega
            have : new5 (pos + 4 + key.length + (j - 4 - key.length)) =
                val.getD (j - 4 - key.length) 0 % 256 :=
              writeBytes_byte val (j - 4 - key.length) new4 (pos + 4 + key.length) hj4
            rw [show pos + j = pos + 4 + key.length + (j - 4 - key.length) from by omega, this]
            have hb256 : val.getD (j - 4 - key.length) 0 < 256 := by
              exact hvb _ (getD_mem val (j - 4 - key.length) 0 hj4)
            rw [Nat.mod_mod, Nat.mod_eq_of_lt hb256]
            have := recBytes_getD_val ⟨ptr, key, val⟩ (j - 4 - key.length) hj4
            rw [show (4 : Nat) + (key.length + (j - 4 - key.length)) = j from by omega] at this
            rw [this]

/-! ### setHeader and the two copy loops -/

theorem setHeader_buildState (buf : BNode) (t total : Nat) (ht : t < 65536)
    (hsize : HEADER + 10 * total ≤ 65535) :
    BuildState (BNode.setHeader buf t total) t total [] := by
  have htot : total < 65536 := by omega
  refine ⟨by simp, by simpa [kvSize_nil] using hsize, ?_, ?_, by simp, ?_, by simp, ?_⟩
  · show (writeLE (writeLE buf 0 t 2) 2 total 2).btype = t
    unfold BNode.btype readU16
    rw [readLE_congr 2 _ (writeLE buf 0 t 2) 0
      (fun j hj => writeLE_unchanged 2 _ 2 total _ (by omega))]
    rw [readLE_writeLE]
    have h2 : (256 : Nat) ^ 2 = 65536 := by norm_num
    rw [h2]
    exact Nat.mod_eq_of_lt ht
  · show (writeLE (writeLE buf 0 t 2) 2 total 2).nkeys = total
    unfold BNode.nkeys readU16
    rw [readLE_writeLE]
    have h2 : (256 : Nat) ^ 2 = 65536 := by norm_num
    rw [h2]
    exact Nat.mod_eq_of_lt htot
  · intro i hi
    have h0 : i = 0 := by simpa using hi
    subst h0
    simp [getOffset_zero, kvSize_nil]
  · intro k hk
    rw [kvSize_nil] at hk
    omega

theorem ptrLoop_spec : ∀ (m : Nat) (new old : BNode) (dst src n i total : Nat)
    (P : Nat → Nat), n - i ≤ m →
    new.nkeys = total →
    dst + n ≤ total →
    HEADER + 10 * total ≤ 65535 →
    src + n ≤ 65535 →
    (∀ j, i ≤ j → j < n → old.getPtr (src + j) = some (P j)) →
    (∀ j, i ≤ j → j < n → P j < 2 ^ 64) →
    ∃ nd, ptrLoop new old dst src n i = some nd ∧
      (∀ q, q < HEADER + 8 * (dst + i) ∨ HEADER + 8 * (dst + n) ≤ q → nd q = new q) ∧
      (∀ j, i ≤ j → j < n → readU64 nd (HEADER + 8 * (dst + j)) = P j) := by
  intro m
  induction m with
  | zero =>
    intro new old dst src n i total P hfuel hn hdst htot hsrc hold hP
    have hni : ¬ i < n := by omega
    refine ⟨new, ?_, fun q _ => rfl, fun j hj1 hj2 => by omega⟩
    rw [ptrLoop]
    simp [hni]
  | succ m ih =>
    intro new old dst src n i total P hfuel hn hdst htot hsrc hold hP
    have hH : HEADER = 4 := rfl
    by_cases hin : i < n
    · have hmods : (src + i) % 65536 = src + i := Nat.mod_eq_of_lt (by omega)
      have hmodd : (dst + i) % 65536 = dst + i := Nat.mod_eq_of_lt (by omega)
      have hgp := hold i le_rfl hin
      have hsp := setPtr_compute new (dst + i) (P i) (by rw [hn]; omega) (by omega)
      rw [ptrLoop]
      simp only [hin, if_true, hmods, hmodd, hgp, hsp]
      set new1 := writeU64 new (HEADER + 8 * (dst + i)) (P i) with hnew1
      have hn1 : new1.nkeys = total := by
        have hsame : new1.nkeys = new.nkeys := by
          unfold BNode.nkeys readU16
          exact readLE_congr 2 new1 new 2
            (fun j hj => writeLE_unchanged 8 new _ _ _ (by omega))
        rw [hsame, hn]
      obtain ⟨nd, h1, h2, h3⟩ := ih new1 old dst src n (i + 1) total P (by omega) hn1 hdst
        htot hsrc (fun j hj1 hj2 => hold j (by omega) hj2) (fun j hj1 hj2 => hP j (by omega) hj2)
      refine ⟨nd, h1, ?_, ?_⟩
      · intro q hq
        rw [h2 q (by omega)]
        exact writeLE_unchanged 8 new _ _ _ (by omega)
      · intro j hj1 hj2
        by_cases hji : j = i
        · subst hji
          have hagree : readU64 nd (HEADER + 8 * (dst + j)) =
              readU64 new1 (HEADER + 8 * (dst + j)) := by
            unfold readU64
            exact readLE_congr 8 nd new1 _ (fun l hl => h2 _ (by omega))
          rw [hagree]
          show readLE (writeLE new (HEADER + 8 * (dst + j)) (P j) 8) _ 8 = P j
          rw [readLE_writeLE]
          have h64 : (256 : Nat) ^ 8 = 2 ^ 64 := by norm_num
          rw [h64]
          exact Nat.mod_eq_of_lt (hP j hj1 hj2)
        · exact h3 j (by omega) hj2
    · have hfin : ptrLoop new old dst src n i = some new := by
        rw [ptrLoop]
        simp [hin]
      refine ⟨new, hfin, fun q _ => rfl, fun j hj1 hj2 => by omega⟩

theorem offLoop_spec : ∀ (m : Nat) (new old : BNode)
    (dst src dstBegin srcBegin n i total : Nat) (S : Nat → Nat),
    n + 1 - i ≤ m → 1 ≤ i →
    new.nkeys = total →
    dst + n ≤ total →
    HEADER + 10 * total ≤ 65535 →
    src + n ≤ 65535 →
    (∀ j, i ≤ j → j ≤ n → old.getOffset (src + j) = some (S j)) →
    (∀ j, i ≤ j → j ≤ n → srcBegin ≤ S j ∧ dstBegin + (S j - srcBegin) < 65536) →
    ∃ nd, offLoop new old dst src dstBegin srcBegin n i = some nd ∧
      (∀ q, q < HEADER + 8 * total + 2 * (dst + i - 1) ∨
            HEADER + 8 * total + 2 * (dst + n) ≤ q → nd q = new q) ∧
      (∀ j, i ≤ j → j ≤ n →
        readU16 nd (HEADER + 8 * total + 2 * (dst + j - 1)) =
          dstBegin + (S j - srcBegin)) := by
  intro m
  induction m with
  | zero =>
    intro new old dst src dstBegin srcBegin n i total S hfuel hi hn hdst htot hsrc hold hSB
    have hin : ¬ i ≤ n := by omega
    refine ⟨new, ?_, fun q _ => rfl, fun j hj1 hj2 => by omega⟩
    rw [offLoop]
    simp [hin]
  | succ m ih =>
    intro new old dst src dstBegin srcBegin n i total S hfuel hi hn hdst htot hsrc hold hSB
    have hH : HEADER = 4 := rfl
    by_cases hin : i ≤ n
    · have hmods : (src + i) % 65536 = src + i := Nat.mod_eq_of_lt (by omega)
      have hmodd : (dst + i) % 65536 = dst + i := Nat.mod_eq_of_lt (by omega)
      have hgo := hold i le_rfl hin
      have hov : (dstBegin + 65536 + S i - srcBegin) % 65536 =
          dstBegin + (S i - srcBegin) := by
        obtain ⟨hsb, hbnd⟩ := hSB i le_rfl hin
        have he : dstBegin + 65536 + S i - srcBegin =
            65536 + (dstBegin + (S i - srcBegin)) := by omega
        rw [he, Nat.add_mod_left]
        exact Nat.mod_eq_of_lt hbnd
      have hso := setOffset_compute new (dst + i)
        ((dstBegin + 65536 + S i - srcBegin) % 65536) (by omega)
        (by rw [hn]; omega) (by rw [hn]; omega)
      rw [hn] at hso
      rw [offLoop]
      simp only [hin, if_true, hmods, hmodd, hgo, hso]
      set new1 := writeU16 new (HEADER + 8 * total + 2 * (dst + i - 1))
        ((dstBegin + 65536 + S i - srcBegin) % 65536) with hnew1
      have hn1 : new1.nkeys = total := by
        have hsame : new1.nkeys = new.nkeys := by
          unfold BNode.nkeys readU16
          exact readLE_congr 2 new1 new 2
            (fun j hj => writeLE_unchanged 2 new _ _ _ (by omega))
        rw [hsame, hn]
      obtain ⟨nd, h1, h2, h3⟩ := ih new1 old dst src dstBegin srcBegin n (i + 1) total S
        (by omega) (by omega) hn1 hdst htot hsrc
        (fun j hj1 hj2 => hold j (by omega) hj2) (fun j hj1 hj2 => hSB j (by omega) hj2)
      refine ⟨nd, h1, ?_, ?_⟩
      · intro q hq
        rw [h2 q (by omega)]
        exact writeLE_unchanged 2 new _ _ _ (by omega)
      · intro j hj1 hj2
        by_cases hji : j = i
        · subst hji
          have hagree : readU16 nd (HEADER + 8 * total + 2 * (dst + j - 1)) =
              readU16 new1 (HEADER + 8 * total + 2 * (dst + j - 1)) := by
            unfold readU16
            exact readLE_congr 2 nd new1 _ (fun l hl => h2 _ (by omega))
          rw [hagree]
          show readLE (writeLE new (HEADER + 8 * total + 2 * (dst + j - 1)) _ 2) _ 2 = _
          rw [readLE_writeLE]
          have h2e : (256 : Nat) ^ 2 = 65536 := by norm_num
          rw [h2e, Nat.mod_mod, hov]
        · exact h3 j (by omega) hj2
    · have hfin : offLoop new old dst src dstBegin srcBegin n i = some new := by
        rw [offLoop]
        simp [hin]
      refine ⟨new, hfin, fun q _ => rfl, fun j hj1 hj2 => by omega⟩

/-! ### The range-copy step -/

theorem kvSize_take_add (os : List Rec) (src j : Nat) :
    kvSize (os.take (src + j)) =
      kvSize (os.take src) + kvSize ((os.drop src).take j) := by
  rw [List.take_add, kvSize_append]

theorem chunk_length (os : List Rec) (src n : Nat) (hsrc : src + n ≤ os.length) :
    ((os.drop src).take n).length = n := by
  simp [List.length_take, List.length_drop]
  omega

theorem chunk_getD (os : List Rec) (src n j : Nat) (hj : j < n)
    (hsrc : src + n ≤ os.length) :
    ((os.drop src).take n).getD j defRec = os.getD (src + j) defRec := by
  have hlen := chunk_length os src n hsrc
  have hjlen : j < ((os.drop src).take n).length := by omega
  rw [getD_eq_getElem _ _ _ hjlen,
    getD_eq_getElem _ _ _ (show src + j < os.length from by omega)]
  simp [List.getElem_take, List.getElem_drop]

theorem kvBytes_drop_getD (os : List Rec) (src n j : Nat) (hsrc : src + n ≤ os.length)
    (hj : j < kvSize ((os.drop src).take n)) :
    (kvBytes os).getD (kvSize (os.take src) + j) 0 =
      (kvBytes ((os.drop src).take n)).getD j 0 := by
  have h1 : kvBytes os = kvBytes (os.take src) ++ kvBytes (os.drop src) := by
    rw [← kvBytes_append, List.take_append_drop]
  rw [h1, ← kvBytes_length, getD_append_right]
  have h2 : os.drop src = (os.drop src).take n ++ (os.drop src).drop n :=
    (List.take_append_drop _ _).symm
  conv_lhs => rw [h2]
  rw [kvBytes_append]
  exact getD_append_left _ _ _ _ (by rw [kvBytes_length]; exact hj)

theorem nodeAppendRange_step {node old : BNode} {t total t2 : Nat} {rs os : List Rec}
    (hb : BuildState node t total rs) (hold : Represents old t2 os)
    (src n : Nat) (hsrc : src + n ≤ os.length) (hdst : rs.length + n ≤ total)
    (hroom : HEADER + 10 * total + kvSize rs + kvSize ((os.drop src).take n) ≤ 65535) :
    ∃ nd, nodeAppendRange node old rs.length src n = some nd ∧
      BuildState nd t total (rs ++ (os.drop src).take n) := by
  have hH : HEADER = 4 := rfl
  have hlen := hb.hlen
  have hsz := hb.hsize
  have holdlen : old.nkeys = os.length := hold.hnkeys
  have holdsz := hold.hsize
  by_cases hn0 : n = 0
  · subst hn0
    refine ⟨node, ?_, ?_⟩
    · unfold nodeAppendRange
      simp
    · simpa using hb
  · have hchlen : ((os.drop src).take n).length = n := chunk_length os src n hsrc
    have hsrcb : src + n ≤ 65535 := by omega
    -- pointer loop
    obtain ⟨new1, hp1, hpframe, hpvals⟩ := ptrLoop_spec n node old rs.length src n 0 total
      (fun j => (os.getD (src + j) defRec).ptr) (by omega) hb.hnkeys (by omega) (by omega)
      hsrcb
      (fun j hj1 hj2 => hold.hptr (src + j) (by omega))
      (fun j hj1 hj2 => (hold.hwf _ (getD_mem os (src + j) defRec (by omega))).1)
    have hb1 : BuildState new1 t total rs := by
      refine BuildState_congr hb new1 (fun q hq => hpframe q ?_)
      omega
    have hdb : new1.getOffset rs.length = some (kvSize rs) := by
      have h := hb1.hoff rs.length le_rfl
      rwa [List.take_length] at h
    have hofs : old.getOffset src = some (kvSize (os.take src)) := hold.hoff src (by omega)
    -- offset loop
    have hSB : ∀ j, 1 ≤ j → j ≤ n →
        kvSize (os.take src) ≤ kvSize (os.take (src + j)) ∧
        kvSize rs + (kvSize (os.take (src + j)) - kvSize (os.take src)) < 65536 := by
      intro j hj1 hj2
      have hmono := kvSize_take_mono os src (src + j) (by omega)
      have hadd := kvSize_take_add os src j
      have hmono2 := kvSize_take_mono (os.drop src) j n hj2
      constructor
      · exact hmono
      · omega
    obtain ⟨new2, ho1, hoframe, hovals⟩ := offLoop_spec n new1 old rs.length src
      (kvSize rs) (kvSize (os.take src)) n 1 total
      (fun j => kvSize (os.take (src + j))) (by omega) le_rfl hb1.hnkeys (by omega)
      (by omega) hsrcb (fun j hj1 hj2 => hold.hoff (src + j) (by omega)) hSB
    have hb2 : BuildState new2 t total rs := by
      refine BuildState_congr hb1 new2 (fun q hq => hoframe q ?_)
      omega
    -- kv positions
    have hkb1 : old.kvPos src =
        some (HEADER + 10 * os.length + kvSize (os.take src)) :=
      BuildState.kvPos_eq hold src (by omega)
    have hmodsn : (src + n) % 65536 = src + n := Nat.mod_eq_of_lt (by omega)
    have hke : old.kvPos (src + n) =
        some (HEADER + 10 * os.length + kvSize (os.take (src + n))) :=
      BuildState.kvPos_eq hold (src + n) (by omega)
    have hkp2 : new2.kvPos rs.length = some (HEADER + 10 * total + kvSize rs) := by
      have h := BuildState.kvPos_eq hb2 rs.length le_rfl
      rwa [List.take_length] at h
    have hediff : kvSize (os.take (src + n)) =
        kvSize (os.take src) + kvSize ((os.drop src).take n) := kvSize_take_add os src n
    have heb : HEADER + 10 * os.length + kvSize (os.take (src + n)) -
        (HEADER + 10 * os.length + kvSize (os.take src)) =
        kvSize ((os.drop src).take n) := by omega
    -- the final copy
    refine ⟨copyBytes new2 (HEADER + 10 * total + kvSize rs) old
      (HEADER + 10 * os.length + kvSize (os.take src))
      (HEADER + 10 * os.length + kvSize (os.take (src + n))), ?_, ?_⟩
    · unfold nodeAppendRange
      rw [if_neg hn0]
      simp only [hp1, hdb, hofs, ho1, hmodsn, hkb1, hke, hkp2]
    · set nd := copyBytes new2 (HEADER + 10 * total + kvSize rs) old
        (HEADER + 10 * os.length + kvSize (os.take src))
        (HEADER + 10 * os.length + kvSize (os.take (src + n))) with hnd
      have hndframe : ∀ q, q < HEADER + 10 * total + kvSize rs ∨
          HEADER + 10 * total + kvSize rs + kvSize ((os.drop src).take n) ≤ q →
          nd q = new2 q := by
        intro q hq
        refine copyBytes_unchanged _ _ new2 _ old q ?_
        rw [heb]
        omega
      have hnd_nkeys : nd.nkeys = total := by
        have hsame : nd.nkeys = new2.nkeys := by
          unfold BNode.nkeys readU16
          exact readLE_congr 2 nd new2 2 (fun j hj => hndframe _ (by omega))
        rw [hsame, hb2.hnkeys]
      have hkvapp : kvSize (rs ++ (os.drop src).take n) =
          kvSize rs + kvSize ((os.drop src).take n) := kvSize_append _ _
      refine ⟨?_, ?_, ?_, hnd_nkeys, ?_, ?_, ?_, ?_⟩
      · simp [hchlen]
        omega
      · rw [hkvapp]
        omega
      · have hsame : nd.btype = new2.btype := by
          unfold BNode.btype readU16
          exact readLE_congr 2 nd new2 0 (fun j hj => hndframe _ (by omega))
        rw [hsame, hb2.htype]
      · intro r hr
        rcases List.mem_append.mp hr with h | h
        · exact hb.hwf r h
        · exact hold.hwf r (List.mem_of_mem_drop (List.mem_of_mem_take h))
      · -- offsets
        intro i hi
        simp only [List.length_append, hchlen] at hi
        rcases Nat.eq_zero_or_pos i with hi0 | hipos
        · subst hi0
          simp [getOffset_zero, kvSize_nil]
        · have hc1 := getOffset_compute nd i hipos
            (by rw [hnd_nkeys]; omega) (by rw [hnd_nkeys]; omega)
          rw [hnd_nkeys] at hc1
          have hread : readU16 nd (HEADER + 8 * total + 2 * (i - 1)) =
              readU16 new2 (HEADER + 8 * total + 2 * (i - 1)) := by
            unfold readU16
            exact readLE_congr 2 nd new2 _ (fun j hj => hndframe _ (by omega))
          rw [hc1, hread]
          by_cases hic : i ≤ rs.length
          · have hc2 := getOffset_compute new2 i hipos
              (by rw [hb2.hnkeys]; omega) (by rw [hb2.hnkeys]; omega)
            rw [hb2.hnkeys] at hc2
            rw [← hc2, take_append_le rs _ i hic]
            exact hb2.hoff i hic
          · obtain ⟨j, hij⟩ : ∃ j, i = rs.length + j := ⟨i - rs.length, by omega⟩
            subst hij
            have hj1 : 1 ≤ j := by omega
            have hj2 : j ≤ n := by omega
            have hval := hovals j hj1 hj2
            rw [hval]
            have htk : (rs ++ (os.drop src).take n).take (rs.length + j) =
                rs ++ ((os.drop src).take n).take j := by
              rw [List.take_add]
              congr 1
              · rw [take_append_le rs _ rs.length le_rfl, List.take_length]
              · rw [List.drop_left]
            rw [htk, kvSize_append]
            have htt : ((os.drop src).take n).take j = (os.drop src).take j := by
              rw [List.take_take, Nat.min_eq_left hj2]
            rw [htt]
            have hadd := kvSize_take_add os src j
            congr 1
            omega
      · -- pointers
        intro i hi
        simp only [List.length_append, hchlen] at hi
        have hc1 := getPtr_compute nd i (by rw [hnd_nkeys]; omega) (by omega)
        have hread : readU64 nd (HEADER + 8 * i) = readU64 new2 (HEADER + 8 * i) := by
          unfold readU64
          exact readLE_congr 8 nd new2 _ (fun j hj => hndframe _ (by omega))
        rw [hc1, hread]
        by_cases hic : i < rs.length
        · have hc2 := getPtr_compute new2 i (by rw [hb2.hnkeys]; omega) (by omega)
          rw [← hc2, getD_append_left rs _ i defRec hic]
          exact hb2.hptr i hic
        · obtain ⟨j, hij⟩ : ∃ j, i = rs.length + j := ⟨i - rs.length, by omega⟩
          subst hij
          have hjn : j < n := by omega
          have hread2 : readU64 new2 (HEADER + 8 * (rs.length + j)) =
              readU64 new1 (HEADER + 8 * (rs.length + j)) := by
            unfold readU64
            exact readLE_congr 8 new2 new1 _ (fun l hl => hoframe _ (by omega))
          rw [hread2, hpvals j (by omega) hjn]
          rw [getD_append_right rs _ j defRec, chunk_getD os src n j hjn hsrc]
      · -- kv bytes
        intro k hk
        rw [hkvapp] at hk
        by_cases hkc : k < kvSize rs
        · rw [hndframe _ (by omega)]
          have h := hb2.hkv k hkc
          rw [h, kvBytes_append]
          rw [getD_append_left _ _ _ _ (by rw [kvBytes_length]; omega)]
        · obtain ⟨j, hjk⟩ : ∃ j, k = kvSize rs + j := ⟨k - kvSize rs, by omega⟩
          subst hjk
          have hjlt : j < kvSize ((os.drop src).take n) := by omega
          have hcb := copyBytes_byte
            (HEADER + 10 * os.length + kvSize (os.take src))
            (HEADER + 10 * os.length + kvSize (os.take (src + n)))
            new2 (HEADER + 10 * total + kvSize rs) old j (by omega)
          rw [← hnd] at hcb
          have hpq : HEADER + 10 * total + (kvSize rs + j) =
              HEADER + 10 * total + kvSize rs + j := by omega
          rw [hpq, hcb, Nat.mod_mod]
          have hold_kvlen : kvSize (os.take src) + kvSize ((os.drop src).take n) ≤
              kvSize os := by
            conv_rhs => rw [← List.take_append_drop src os]
            rw [kvSize_append]
            have := kvSize_take_le n (os.drop src)
            omega
          have hok := hold.hkv (kvSize (os.take src) + j) (by omega)
          have hbp : HEADER + 10 * os.length + kvSize (os.take src) + j =
              HEADER + 10 * os.length + (kvSize (os.take src) + j) := by omega
          rw [hbp, hok, kvBytes_drop_getD os src n j hsrc hjlt]
          rw [kvBytes_append]
          have hkk : kvSize rs + j = (kvBytes rs).length + j := by rw [kvBytes_length]
          rw [hkk, getD_append_right]

/-! ### leafInsert builds the inserted record list -/

theorem leafInsert_spec (buf old : BNode) (t2 : Nat) (rs : List Rec) (idx : Nat)
    (key val : List Nat) (hold : Represents old t2 rs) (hidx : idx ≤ rs.length)
    (hkl : key.length < 65536) (hvl : val.length < 65536)
    (hkb : ∀ b ∈ key, b < 256) (hvb : ∀ b ∈ val, b < 256)
    (hroom : HEADER + 10 * (rs.length + 1) + kvSize rs +
      (4 + key.length + val.length) ≤ 65535) :
    ∃ nd, leafInsert buf old idx key val = some nd ∧
      Represents nd BNODE_LEAF (rs.take idx ++ ⟨0, key, val⟩ :: rs.drop idx) := by
  have hH : HEADER = 4 := rfl
  have hL : BNODE_LEAF = 2 := rfl
  have hkvtd : kvSize (rs.take idx) + kvSize (rs.drop idx) = kvSize rs := by
    rw [← kvSize_append, List.take_append_drop]
  have htklen : (rs.take idx).length = idx := by
    rw [List.length_take, Nat.min_eq_left hidx]
  have htkle := kvSize_take_le idx rs
  -- header
  have hb0 : BuildState (BNode.setHeader buf BNODE_LEAF (rs.length + 1)) BNODE_LEAF
      (rs.length + 1) [] :=
    setHeader_buildState buf BNODE_LEAF (rs.length + 1) (by omega) (by omega)
  -- first range copy
  obtain ⟨new2, hr1, hbs1⟩ := nodeAppendRange_step hb0 hold 0 idx (by omega)
    (by simp; omega)
    (by simp only [kvSize_nil, List.drop_zero, List.length_nil]
        have := kvSize_take_le idx rs
        omega)
  simp only [List.length_nil, List.nil_append, List.drop_zero] at hr1 hbs1
  -- the new record
  have heq1 : (rs.take idx).length = idx := htklen
  obtain ⟨new3, hkv1, hbs2⟩ := nodeAppendKV_step hbs1 (by rw [heq1]; omega) 0 key val
    (by norm_num) hkl hvl hkb hvb (by rw [heq1] at *; omega)
  rw [heq1] at hkv1
  -- second range copy
  have heq2 : (rs.take idx ++ [(⟨0, key, val⟩ : Rec)]).length = idx + 1 := by
    simp [htklen]
  have hdroplen : (rs.drop idx).length = rs.length - idx := List.length_drop idx rs
  have hdtake : (rs.drop idx).take (rs.length - idx) = rs.drop idx := by
    apply List.take_of_length_le
    rw [hdroplen]
  obtain ⟨nd, hr2, hbs3⟩ := nodeAppendRange_step hbs2 hold idx (rs.length - idx)
    (by omega) (by rw [heq2]; omega)
    (by rw [hdtake, kvSize_append, kvSize_singleton]
        simp only [recSize]
        omega)
  rw [heq2] at hr2
  rw [hdtake] at hbs3
  have hfinal : (rs.take idx ++ [(⟨0, key, val⟩ : Rec)]) ++ rs.drop idx =
      rs.take idx ++ (⟨0, key, val⟩ : Rec) :: rs.drop idx := by
    rw [List.append_assoc, List.singleton_append]
  rw [hfinal] at hbs3
  refine ⟨nd, ?_, ?_⟩
  · unfold leafInsert
    have hnk : old.nkeys = rs.length := hold.hnkeys
    have hm1 : (idx + 1) % 65536 = idx + 1 := Nat.mod_eq_of_lt (by omega)
    have hm2 : (rs.length + 65536 - idx) % 65536 = rs.length - idx := by
      have he : rs.length + 65536 - idx = 65536 + (rs.length - idx) := by omega
      rw [he, Nat.add_mod_left]
      exact Nat.mod_eq_of_lt (by omega)
    rw [hnk]
    simp only [hr1, hkv1, hm1, hm2, hr2]
  · show Represents nd BNODE_LEAF _
    unfold Represents
    have hlen_new : (rs.take idx ++ (⟨0, key, val⟩ : Rec) :: rs.drop idx).length =
        rs.length + 1 := by
      simp [htklen]
      omega
    rw [hlen_new]
    exact hbs3

/-! ### Arbitrary left-to-right construction sequences -/

/-- One call of a construction sequence: either `nodeAppendKV` with a pointer,
key and value, or `nodeAppendRange` from a source node. -/
inductive BuildStep where
  | kv : Nat → List Nat → List Nat → BuildStep
  | range : BNode → Nat → Nat → BuildStep

/-- Run a list of construction calls left-to-right, keeping the running
append index `dst`. -/
def runBuild (node : BNode) (dst : Nat) : List BuildStep → Option BNode
  | [] => some node
  | BuildStep.kv p k v :: rest =>
    match nodeAppendKV node dst p k v with
    | none => none
    | some nd => runBuild nd (dst + 1) rest
  | BuildStep.range old src n :: rest =>
    match nodeAppendRange node old dst src n with
    | none => none
    | some nd => runBuild nd (dst + n) rest

/-- Well-formedness of a construction sequence together with the record list
it contributes: `kv` steps supply a well-formed record, `range` steps copy a
sub-range of a well-formed source node. -/
inductive StepsOK : List BuildStep → List Rec → Prop where
  | nil : StepsOK [] []
  | kv (p : Nat) (k v : List Nat) (rest : List BuildStep) (rs : List Rec) :
      recWF ⟨p, k, v⟩ → StepsOK rest rs →
      StepsOK (BuildStep.kv p k v :: rest) (⟨p, k, v⟩ :: rs)
  | range (old : BNode) (t2 : Nat) (os : List Rec) (src n : Nat)
      (rest : List BuildStep) (rs : List Rec) :
      Represents old t2 os → src + n ≤ os.length → StepsOK rest rs →
      StepsOK (BuildStep.range old src n :: rest) ((os.drop src).take n ++ rs)

theorem runBuild_spec {steps : List BuildStep} {chunk : List Rec}
    (hok : StepsOK steps chunk) :
    ∀ (node : BNode) (t total : Nat) (rs : List Rec), BuildState node t total rs →
    rs.length + chunk.length ≤ total →
    HEADER + 10 * total + kvSize rs + kvSize chunk ≤ 65535 →
    ∃ nd, runBuild node rs.length steps = some nd ∧
      BuildState nd t total (rs ++ chunk) := by
  induction hok with
  | nil =>
    intro node t total rs hb _ _
    exact ⟨node, rfl, by simpa using hb⟩
  | kv p k v rest rs2 hwf hrest ih =>
    intro node t total rs hb hlen hroom
    have hrsz : recSize (⟨p, k, v⟩ : Rec) = 4 + k.length + v.length := rfl
    have hkvc : kvSize ((⟨p, k, v⟩ : Rec) :: rs2) =
        recSize (⟨p, k, v⟩ : Rec) + kvSize rs2 := kvSize_cons _ _
    simp only [List.length_cons] at hlen
    obtain ⟨nd1, h1, hb1⟩ := nodeAppendKV_step hb (by omega) p k v hwf.1 hwf.2.1
      hwf.2.2.1 hwf.2.2.2.1 hwf.2.2.2.2 (by omega)
    obtain ⟨nd, h2, hb2⟩ := ih nd1 t total (rs ++ [⟨p, k, v⟩]) hb1
      (by simp; omega)
      (by rw [kvSize_append, kvSize_singleton]; omega)
    refine ⟨nd, ?_, ?_⟩
    · show runBuild node rs.length (BuildStep.kv p k v :: rest) = some nd
      rw [runBuild]
      simp only [h1]
      have hl2 : (rs ++ [(⟨p, k, v⟩ : Rec)]).length = rs.length + 1 := by simp
      rw [hl2] at h2
      exact h2
    · have hassoc : (rs ++ [(⟨p, k, v⟩ : Rec)]) ++ rs2 =
          rs ++ (⟨p, k, v⟩ : Rec) :: rs2 := by
        rw [List.append_assoc, List.singleton_append]
      rwa [hassoc] at hb2
  | range old t2 os src n rest rs2 hrep hsrc hrest ih =>
    intro node t total rs hb hlen hroom
    have hchlen : ((os.drop src).take n).length = n := chunk_length os src n hsrc
    have hkvapp : kvSize ((os.drop src).take n ++ rs2) =
        kvSize ((os.drop src).take n) + kvSize rs2 := kvSize_append _ _
    simp only [List.length_append, hchlen] at hlen
    obtain ⟨nd1, h1, hb1⟩ := nodeAppendRange_step hb hrep src n hsrc (by omega) (by omega)
    obtain ⟨nd, h2, hb2⟩ := ih nd1 t total (rs ++ (os.drop src).take n) hb1
      (by simp [hchlen]; omega)
      (by rw [kvSize_append]; omega)
    refine ⟨nd, ?_, ?_⟩
    · show runBuild node rs.length (BuildStep.range old src n :: rest) = some nd
      rw [runBuild]
      simp only [h1]
      have hl2 : (rs ++ (os.drop src).take n).length = rs.length + n := by
        simp [hchlen]
      rw [hl2] at h2
      exact h2
    · rwa [List.append_assoc] at hb2

/-! ### The floor-lookup loop -/

theorem sorted_global (n : Nat) (ks : Nat → List Nat)
    (hs : ∀ j, j + 1 < n → bytesCompare (ks j) (ks (j + 1)) < 0) :
    ∀ a b, a < b → b < n → bytesCompare (ks a) (ks b) < 0 := by
  have H : ∀ d a, a + d < n → 0 < d → bytesCompare (ks a) (ks (a + d)) < 0 := by
    intro d
    induction d with
    | zero => intro a h h0; omega
    | succ d ihd =>
      intro a h hd0
      rcases Nat.eq_zero_or_pos d with h0 | hpos
      · subst h0
        simpa using hs a (by omega)
      · have h1 := ihd a (by omega) hpos
        have h2 := hs (a + d) (by omega)
        have he : a + d + 1 = a + (d + 1) := by omega
        rw [he] at h2
        exact bytesCompare_trans_neg _ _ _ h1 h2
  intro a b hab hbn
  have he : b = a + (b - a) := by omega
  rw [he]
  exact H (b - a) a (by omega) (by omega)

theorem lookupLoop_spec (node : BNode) (ks : Nat → List Nat) (P : List Nat)
    (hks : ∀ j, j < node.nkeys → node.getKey j = some (ks j))
    (hs : ∀ a b, a < b → b < node.nkeys → bytesCompare (ks a) (ks b) < 0) :
    ∀ (m i : Nat), node.nkeys - i ≤ m → 1 ≤ i → i ≤ node.nkeys →
    (∀ j, 1 ≤ j → j < i → bytesCompare (ks j) P < 0) →
    ∃ r, lookupLoop node P i (i - 1) = some r ∧ r + 1 ≤ node.nkeys ∧
      (∀ j, 1 ≤ j → j ≤ r → bytesCompare (ks j) P ≤ 0) ∧
      (∀ j, r < j → j < node.nkeys → 0 < bytesCompare (ks j) P) := by
  intro m
  induction m with
  | zero =>
    intro i hfuel h1 hle hprev
    have hin : ¬ i < node.nkeys := by omega
    rw [lookupLoop]
    simp only [hin, if_false]
    refine ⟨i - 1, rfl, by omega, ?_, ?_⟩
    · intro j hj1 hj2
      exact le_of_lt (hprev j hj1 (by omega))
    · intro j hj1 hj2
      omega
  | succ m ih =>
    intro i hfuel h1 hle hprev
    by_cases hin : i < node.nkeys
    · rw [lookupLoop]
      simp only [hin, if_true, hks i hin]
      rcases lt_trichotomy (bytesCompare (ks i) P) 0 with hc | hc | hc
      · have hcle : bytesCompare (ks i) P ≤ 0 := le_of_lt hc
        have hcge : ¬ (0 ≤ bytesCompare (ks i) P) := by omega
        rw [if_pos hcle, if_neg hcge]
        have hrec := ih (i + 1) (by omega) (by omega) (by omega)
          (fun j hj1 hj2 => by
            rcases Nat.lt_or_ge j i with h | h
            · exact hprev j hj1 h
            · have hji : j = i := by omega
              rw [hji]
              exact hc)
        simpa using hrec
      · have hcle : bytesCompare (ks i) P ≤ 0 := le_of_eq hc
        have hcge : (0 : Int) ≤ bytesCompare (ks i) P := by omega
        rw [if_pos hcle, if_pos hcge]
        have heq : ks i = P := bytesCompare_eq_zero _ _ hc
        refine ⟨i, rfl, by omega, ?_, ?_⟩
        · intro j hj1 hj2
          rcases Nat.lt_or_ge j i with h | h
          · exact le_of_lt (hprev j hj1 h)
          · have hji : j = i := by omega
            rw [hji, hc]
        · intro j hj1 hj2
          rw [← heq]
          exact (bytesCompare_pos_iff _ _).mpr (hs i j hj1 hj2)
      · have hcle : ¬ (bytesCompare (ks i) P ≤ 0) := by omega
        have hcge : (0 : Int) ≤ bytesCompare (ks i) P := by omega
        rw [if_neg hcle, if_pos hcge]
        refine ⟨i - 1, rfl, by omega, ?_, ?_⟩
        · intro j hj1 hj2
          exact le_of_lt (hprev j hj1 (by omega))
        · intro j hj1 hj2
          rcases Nat.lt_or_ge j i with h | h
          · have hji : j = i := by omega
            rw [hji]
            exact hc
          · rcases Nat.lt_or_ge i j with h2 | h2
            · have hPi : bytesCompare P (ks i) < 0 := by
                have := bytesCompare_neg P (ks i)
                omega
              have hij := hs i j h2 hj2
              have := bytesCompare_trans_neg P (ks i) (ks j) hPi hij
              have hflip := bytesCompare_neg P (ks j)
              omega
            · have hji : j = i := by omega
              rw [hji]
              exact hc
    · rw [lookupLoop]
      simp only [hin, if_false]
      refine ⟨i - 1, rfl, by omega, ?_, ?_⟩
      · intro j hj1 hj2
        exact le_of_lt (hprev j hj1 (by omega))
      · intro j hj1 hj2
        omega

theorem nodeLookupLE_spec (node : BNode) (ks : Nat → List Nat) (P : List Nat)
    (hks : ∀ j, j < node.nkeys → node.getKey j = some (ks j))
    (hadj : ∀ j, j + 1 < node.nkeys → bytesCompare (ks j) (ks (j + 1)) < 0) :
    ∃ r, nodeLookupLE node P = some r ∧
      (node.nkeys = 0 → r = 0) ∧
      (1 ≤ node.nkeys → r + 1 ≤ node.nkeys ∧
        (∀ j, 1 ≤ j → j ≤ r → bytesCompare (ks j) P ≤ 0) ∧
        (∀ j, r < j → j < node.nkeys → 0 < bytesCompare (ks j) P)) := by
  by_cases h0 : node.nkeys = 0
  · refine ⟨0, ?_, fun _ => rfl, fun h => by omega⟩
    unfold nodeLookupLE
    rw [lookupLoop]
    simp [h0]
  · have hs := sorted_global node.nkeys ks hadj
    obtain ⟨r, hr, hr1, hr2, hr3⟩ := lookupLoop_spec node ks P hks hs node.nkeys 1
      (by omega) le_rfl (by omega) (by omega)
    refine ⟨r, ?_, fun h => by omega, fun h => ⟨hr1, hr2, hr3⟩⟩
    unfold nodeLookupLE
    simpa using hr

theorem lookupLoop_congr (n1 n2 : BNode) (P : List Nat)
    (hn : n1.nkeys = n2.nkeys)
    (hk : ∀ i, 1 ≤ i → i < n1.nkeys → n1.getKey i = n2.getKey i) :
    ∀ (m i found : Nat), n1.nkeys - i ≤ m → 1 ≤ i →
    lookupLoop n1 P i found = lookupLoop n2 P i found := by
  intro m
  induction m with
  | zero =>
    intro i found hfuel h1
    have hin : ¬ i < n1.nkeys := by omega
    have hin2 : ¬ i < n2.nkeys := by rw [← hn]; exact hin
    rw [lookupLoop, lookupLoop]
    simp [hin, hin2]
  | succ m ih =>
    intro i found hfuel h1
    by_cases hin : i < n1.nkeys
    · have hin2 : i < n2.nkeys := by rw [← hn]; exact hin
      rw [lookupLoop, lookupLoop]
      simp only [hin, hin2, if_true]
      rw [← hk i h1 hin]
      cases hgk : n1.getKey i with
      | none => rfl
      | some ki =>
        simp only []
        by_cases hc : (0 : Int) ≤ bytesCompare ki P
        · simp [hc]
        · simp only [hc, if_false]
          exact ih (i + 1) _ (by omega) (by omega)
    · have hin2 : ¬ i < n2.nkeys := by rw [← hn]; exact hin
      rw [lookupLoop, lookupLoop]
      simp [hin, hin2]

theorem getD_take {α : Type} (rs : List α) (d : α) (idx j : Nat) (hj : j < idx)
    (hle : idx ≤ rs.length) :
    (rs.take idx).getD j d = rs.getD j d := by
  have hjl : j < (rs.take idx).length := by rw [List.length_take]; omega
  rw [getD_eq_getElem _ _ _ hjl, getD_eq_getElem _ _ _ (show j < rs.length from by omega)]
  simp [List.getElem_take]

theorem getD_drop {α : Type} (rs : List α) (d : α) (idx m : Nat)
    (h : idx + m < rs.length) :
    (rs.drop idx).getD m d = rs.getD (idx + m) d := by
  have hml : m < (rs.drop idx).length := by rw [List.length_drop]; omega
  rw [getD_eq_getElem _ _ _ hml, getD_eq_getElem _ _ _ h]
  simp [List.getElem_drop]

theorem insert_getD (rs : List Rec) (idx : Nat) (r0 : Rec) (hidx : idx ≤ rs.length)
    (j : Nat) (hj : j ≤ rs.length) :
    (rs.take idx ++ r0 :: rs.drop idx).getD j defRec =
      if j < idx then rs.getD j defRec
      else if j = idx then r0
      else rs.getD (j - 1) defRec := by
  have htklen : (rs.take idx).length = idx := by
    rw [List.length_take, Nat.min_eq_left hidx]
  by_cases h1 : j < idx
  · rw [if_pos h1, getD_append_left _ _ _ _ (by omega), getD_take rs defRec idx j h1 hidx]
  · rw [if_neg h1]
    by_cases h2 : j = idx
    · rw [if_pos h2, h2]
      have := getD_append_right (rs.take idx) (r0 :: rs.drop idx) 0 defRec
      rw [htklen] at this
      simpa using this
    · rw [if_neg h2]
      have hje : j = idx + (1 + (j - idx - 1)) := by omega
      rw [hje]
      have := getD_append_right (rs.take idx) (r0 :: rs.drop idx) (1 + (j - idx - 1)) defRec
      rw [htklen] at this
      rw [this]
      have hcons : (r0 :: rs.drop idx).getD (1 + (j - idx - 1)) defRec =
          (rs.drop idx).getD (j - idx - 1) defRec := by
        have he : 1 + (j - idx - 1) = (j - idx - 1) + 1 := by omega
        rw [he]
        simp
      rw [hcons, getD_drop rs defRec idx (j - idx - 1) (by omega)]
      congr 1
      omega

/-! ### Concrete sample nodes -/

/-- Build a page buffer from a concrete byte list (unused bytes are zero). -/
def bytesToBNode (l : List Nat) : BNode := fun i => l.getD i 0

/-- A freshly zeroed page buffer. -/
def zeroBuf : BNode := fun _ => 0

/-- A leaf node with no keys. -/
def emptyLeaf : BNode := bytesToBNode [2, 0, 0, 0]

/-- A leaf holding ("a","1") and ("b","2"). -/
def sampleLeaf : BNode := bytesToBNode
  [2, 0, 2, 0,
   0, 0, 0, 0, 0, 0, 0, 0, 0, 0, 0, 0, 0, 0, 0, 0,
   6, 0, 12, 0,
   1, 0, 1, 0, 97, 49,
   1, 0, 1, 0, 98, 50]

/-- Same as `sampleLeaf` except that the key of record 0 is "`" (96). -/
def sampleLeafAlt : BNode := bytesToBNode
  [2, 0, 2, 0,
   0, 0, 0, 0, 0, 0, 0, 0, 0, 0, 0, 0, 0, 0, 0, 0,
   6, 0, 12, 0,
   1, 0, 1, 0, 96, 49,
   1, 0, 1, 0, 98, 50]

/-- The record list held by `sampleLeaf`. -/
def sampleRecs : List Rec := [⟨0, [97], [49]⟩, ⟨0, [98], [50]⟩]

/-- The key function of `sampleLeaf`. -/
def sampleKs : Nat → List Nat := fun i => if i = 0 then [97] else [98]

theorem emptyLeaf_represents : Represents emptyLeaf BNODE_LEAF [] := by
  refine ⟨by decide, by decide, by decide, by decide, by simp, ?_, by simp, ?_⟩
  · intro i hi
    have h0 : i = 0 := by simpa using hi
    subst h0
    simp [getOffset_zero, kvSize_nil]
  · intro k hk
    rw [kvSize_nil] at hk
    omega

theorem sampleLeaf_represents : Represents sampleLeaf BNODE_LEAF sampleRecs := by
  refine ⟨by decide, by decide, by decide, by decide, by decide, ?_, ?_, ?_⟩
  · intro i hi
    have hlen : sampleRecs.length = 2 := rfl
    rw [hlen] at hi
    interval_cases i <;> decide
  · intro i hi
    have hlen : sampleRecs.length = 2 := rfl
    rw [hlen] at hi
    interval_cases i <;> decide
  · intro k hk
    have hk10 : k < 12 := by
      have : kvSize sampleRecs = 12 := by decide
      omega
    interval_cases k <;> decide

/-! ### The claims -/

/-- C1: for every node whose keys `keyAt(0..nkeys)` are strictly increasing
byte-lexicographically and for every probe key, `nodeLookupLE(node, probe)`
returns the unique index `i` with `keyAt(i) ≤ probe` and (`i = nkeys-1` or
`keyAt(i+1) > probe`), or index 0 if no key is ≤ probe. -/
theorem c1_nodeLookupLE_correct (node : BNode) (ks : Nat → List Nat)
    (probe : List Nat)
    (hks : ∀ i, i < node.nkeys → node.getKey i = some (ks i))
    (hsorted : ∀ i, i + 1 < node.nkeys → bytesCompare (ks i) (ks (i + 1)) < 0) :
    ∃ r, nodeLookupLE node probe = some r ∧
      ((∃ i, i < node.nkeys ∧ bytesCompare (ks i) probe ≤ 0) →
        r < node.nkeys ∧ bytesCompare (ks r) probe ≤ 0 ∧
        (r = node.nkeys - 1 ∨ 0 < bytesCompare (ks (r + 1)) probe) ∧
        (∀ j, j < node.nkeys → bytesCompare (ks j) probe ≤ 0 →
          (j = node.nkeys - 1 ∨ 0 < bytesCompare (ks (j + 1)) probe) → j = r)) ∧
      ((∀ i, i < node.nkeys → 0 < bytesCompare (ks i) probe) → r = 0) := by
  obtain ⟨r, hr, h0, h1⟩ := nodeLookupLE_spec node ks probe hks hsorted
  refine ⟨r, hr, ?_, ?_⟩
  · rintro ⟨i0, hi0, hle⟩
    have hpos : 1 ≤ node.nkeys := by omega
    obtain ⟨hrn, hr2, hr3⟩ := h1 hpos
    have hrlt : r < node.nkeys := by omega
    have hrle : bytesCompare (ks r) probe ≤ 0 := by
      rcases Nat.eq_zero_or_pos r with hr0 | hrpos
      · subst hr0
        rcases Nat.eq_zero_or_pos i0 with hi00 | hi0pos
        · subst hi00
          exact hle
        · have := hr3 i0 (by omega) hi0
          omega
      · exact hr2 r hrpos le_rfl
    refine ⟨hrlt, hrle, ?_, ?_⟩
    · by_cases hlast : r + 1 < node.nkeys
      · right
        exact hr3 (r + 1) (by omega) hlast
      · left
        omega
    · intro j hj hjle hjnext
      by_cases hjr : j < r
      · exfalso
        rcases hjnext with hl | hnext
        · omega
        · have := hr2 (j + 1) (by omega) (by omega)
          omega
      · by_cases hjr2 : r < j
        · exfalso
          have := hr3 j hjr2 hj
          omega
        · omega
  · intro hB
    rcases Nat.eq_zero_or_pos node.nkeys with hn0 | hnpos
    · exact h0 hn0
    · obtain ⟨hrn, hr2, hr3⟩ := h1 hnpos
      rcases Nat.eq_zero_or_pos r with hr0 | hrpos
      · exact hr0
      · exfalso
        have h := hr2 r hrpos le_rfl
        have := hB r (by omega)
        omega

/-- Witness for C1 at a concrete two-key leaf and probe "a". -/
theorem c1_witness :
    ∃ r, nodeLookupLE sampleLeaf [97] = some r ∧
      ((∃ i, i < sampleLeaf.nkeys ∧ bytesCompare (sampleKs i) [97] ≤ 0) →
        r < sampleLeaf.nkeys ∧ bytesCompare (sampleKs r) [97] ≤ 0 ∧
        (r = sampleLeaf.nkeys - 1 ∨ 0 < bytesCompare (sampleKs (r + 1)) [97]) ∧
        (∀ j, j < sampleLeaf.nkeys → bytesCompare (sampleKs j) [97] ≤ 0 →
          (j = sampleLeaf.nkeys - 1 ∨ 0 < bytesCompare (sampleKs (j + 1)) [97]) →
          j = r)) ∧
      ((∀ i, i < sampleLeaf.nkeys → 0 < bytesCompare (sampleKs i) [97]) → r = 0) :=
  c1_nodeLookupLE_correct sampleLeaf sampleKs [97] (by decide)
    (by intro i hi
        have h2 : sampleLeaf.nkeys = 2 := by decide
        rw [h2] at hi
        have h0 : i = 0 := by omega
        subst h0
        decide)

/-- C8: the pointer and key/value accessors `getPtr`, `setPtr`, `getKey`,
`getVal` panic exactly when `idx ≥ nkeys`, and the offset accessors
`setOffset` and `getOffset` (the latter for `idx ≠ 0`, with `getOffset(0)`
defined as 0) panic exactly when `idx` is outside `1 ≤ idx ≤ nkeys`; in
bounds, no panic branch is reachable. -/
theorem c8_accessor_panics (node : BNode) (idx v p : Nat) :
    (node.getPtr idx = none ↔ node.nkeys ≤ idx) ∧
    (node.setPtr idx p = none ↔ node.nkeys ≤ idx) ∧
    (node.getKey idx = none ↔ node.nkeys ≤ idx) ∧
    (node.getVal idx = none ↔ node.nkeys ≤ idx) ∧
    (node.getOffset 0 = some 0) ∧
    (node.getOffset idx = none ↔ (idx ≠ 0 ∧ ¬ (1 ≤ idx ∧ idx ≤ node.nkeys))) ∧
    (node.setOffset idx v = none ↔ ¬ (1 ≤ idx ∧ idx ≤ node.nkeys)) := by
  refine ⟨?_, ?_, ?_, ?_, rfl, ?_, ?_⟩
  · by_cases h : node.nkeys ≤ idx <;> simp [BNode.getPtr, h]
  · by_cases h : node.nkeys ≤ idx <;> simp [BNode.setPtr, h]
  · by_cases h : node.nkeys ≤ idx
    · simp [BNode.getKey, h]
    · have h2 : ¬ node.nkeys < idx := by omega
      have hoff : ∃ w, node.getOffset idx = some w := by
        by_cases h0 : idx = 0
        · subst h0
          exact ⟨0, rfl⟩
        · have hg : ¬ (idx < 1 ∨ node.nkeys < idx) := by omega
          refine ⟨readU16 node ((HEADER + 8 * node.nkeys + 2 * (idx - 1)) % 65536), ?_⟩
          simp [BNode.getOffset, offsetPos, h0, hg]
          exact ⟨_, ⟨by omega, rfl⟩, rfl⟩
      obtain ⟨w, hw⟩ := hoff
      simp [BNode.getKey, BNode.kvPos, h, h2, hw]
  · by_cases h : node.nkeys ≤ idx
    · simp [BNode.getVal, h]
    · have h2 : ¬ node.nkeys < idx := by omega
      have hoff : ∃ w, node.getOffset idx = some w := by
        by_cases h0 : idx = 0
        · subst h0
          exact ⟨0, rfl⟩
        · have hg : ¬ (idx < 1 ∨ node.nkeys < idx) := by omega
          refine ⟨readU16 node ((HEADER + 8 * node.nkeys + 2 * (idx - 1)) % 65536), ?_⟩
          simp [BNode.getOffset, offsetPos, h0, hg]
          exact ⟨_, ⟨by omega, rfl⟩, rfl⟩
      obtain ⟨w, hw⟩ := hoff
      simp [BNode.getVal, BNode.kvPos, h, h2, hw]
  · by_cases h0 : idx = 0
    · subst h0
      simp [BNode.getOffset]
    · by_cases h : node.nkeys < idx
      · simp [BNode.getOffset, offsetPos, h0, h]
      · simp [BNode.getOffset, offsetPos, h0, h]
  · by_cases h0 : idx = 0
    · subst h0
      simp [BNode.setOffset, offsetPos]
    · by_cases h : node.nkeys < idx
      · simp [BNode.setOffset, offsetPos, h0, h]
      · simp [BNode.setOffset, offsetPos, h0, h]

/-- C10: `nodeLookupLE` never compares the key at index 0: any node with
`nkeys ≤ 1` yields index 0 for every probe, and two nodes agreeing on
`nkeys` and on the keys at indices `1..nkeys-1` yield the same index for
every probe. -/
theorem c10_lookup_ignores_key0 :
    (∀ (node : BNode) (probe : List Nat), node.nkeys ≤ 1 →
      nodeLookupLE node probe = some 0) ∧
    (∀ (n1 n2 : BNode) (probe : List Nat), n1.nkeys = n2.nkeys →
      (∀ i, i < n1.nkeys → (1 ≤ i → n1.getKey i = n2.getKey i)) →
      nodeLookupLE n1 probe = nodeLookupLE n2 probe) := by
  constructor
  · intro node probe h
    unfold nodeLookupLE
    rw [lookupLoop]
    have h1 : ¬ 1 < node.nkeys := by omega
    simp [h1]
  · intro n1 n2 probe hn hk
    unfold nodeLookupLE
    exact lookupLoop_congr n1 n2 probe hn (fun i h1 h2 => hk i h2 h1)
      n1.nkeys 1 0 (by omega) le_rfl

/-- Witness for C10: the empty leaf, and the sample leaf with record 0's key
replaced. -/
theorem c10_witness :
    nodeLookupLE emptyLeaf [97] = some 0 ∧
    nodeLookupLE sampleLeaf [98] = nodeLookupLE sampleLeafAlt [98] :=
  ⟨c10_lookup_ignores_key0.1 emptyLeaf [97] (by decide),
   c10_lookup_ignores_key0.2 sampleLeaf sampleLeafAlt [98] (by decide) (by decide)⟩

/-- C2 counterexample: the claim `new.nbytes() = old.nbytes() + 4 + len(key)
+ len(val)` fails on the well-formed empty leaf with key "b", value "2":
the code yields 20, the claim predicts 4 + 4 + 1 + 1 = 10. -/
theorem c2_counterexample :
    Represents emptyLeaf BNODE_LEAF [] ∧
    emptyLeaf.nbytes = some 4 ∧
    (leafInsert zeroBuf emptyLeaf 0 [98] [50]).bind BNode.nbytes = some 20 ∧
    (20 : Nat) ≠ 4 + (4 + 1 + 1) :=
  ⟨emptyLeaf_represents, by decide, by decide, by decide⟩

/-- C2 (amended): for every well-formed old leaf node within the page size,
every insertion index `0 ≤ idx ≤ old.nkeys()` and every key and value within
the size limits, `leafInsert` produces a node with
`new.nbytes() = old.nbytes() + 8 + 2 + 4 + len(key) + len(val)` (the claim's
`+ 4` misses the 8-byte pointer slot and the 2-byte offset slot that each
record also occupies). -/
theorem c2_leafInsert_nbytes (buf old : BNode) (t2 : Nat) (rs : List Rec)
    (idx : Nat) (key val : List Nat)
    (hold : Represents old t2 rs)
    (hpage : HEADER + 10 * rs.length + kvSize rs ≤ BTREE_PAGE_SIZE)
    (hidx : idx ≤ old.nkeys)
    (hkl : key.length ≤ BTREE_MAX_KEY_SIZE) (hvl : val.length ≤ BTREE_MAX_VAL_SIZE)
    (hkb : ∀ b ∈ key, b < 256) (hvb : ∀ b ∈ val, b < 256) :
    ∃ nd ob, leafInsert buf old idx key val = some nd ∧ old.nbytes = some ob ∧
      nd.nbytes = some (ob + 8 + 2 + 4 + key.length + val.length) := by
  have hH : HEADER = 4 := rfl
  have hP : BTREE_PAGE_SIZE = 4096 := rfl
  have hK : BTREE_MAX_KEY_SIZE = 1000 := rfl
  have hV : BTREE_MAX_VAL_SIZE = 3000 := rfl
  rw [hold.hnkeys] at hidx
  obtain ⟨nd, h1, h2⟩ := leafInsert_spec buf old t2 rs idx key val hold hidx
    (by omega) (by omega) hkb hvb (by omega)
  have hob := Represents.nbytes_eq hold
  have hnb := Represents.nbytes_eq h2
  have hlen : (rs.take idx ++ (⟨0, key, val⟩ : Rec) :: rs.drop idx).length =
      rs.length + 1 := by
    simp [List.length_take, Nat.min_eq_left hidx]
    omega
  have hkv : kvSize (rs.take idx ++ (⟨0, key, val⟩ : Rec) :: rs.drop idx) =
      kvSize rs + (4 + key.length + val.length) := by
    rw [kvSize_append, kvSize_cons]
    have htd : kvSize (rs.take idx) + kvSize (rs.drop idx) = kvSize rs := by
      rw [← kvSize_append, List.take_append_drop]
    have hrsz : recSize (⟨0, key, val⟩ : Rec) = 4 + key.length + val.length := rfl
    omega
  refine ⟨nd, HEADER + 10 * rs.length + kvSize rs, h1, hob, ?_⟩
  rw [hnb, hlen, hkv]
  congr 1
  omega

/-- Witness for the amended C2: inserting ("b","2") into the empty leaf grows
`nbytes` from 4 to 20 = 4 + 8 + 2 + 4 + 1 + 1. -/
theorem c2_witness :
    ∃ nd ob, leafInsert zeroBuf emptyLeaf 0 [98] [50] = some nd ∧
      emptyLeaf.nbytes = some ob ∧
      nd.nbytes = some (ob + 8 + 2 + 4 + [98].length + [50].length) :=
  c2_leafInsert_nbytes zeroBuf emptyLeaf BNODE_LEAF [] 0 [98] [50]
    emptyLeaf_represents (by decide) (by decide) (by decide) (by decide)
    (by decide) (by decide)

/-- A leaf with one record ("b","2"), built by the code itself. -/
def demoLeaf1 : BNode := (leafInsert zeroBuf emptyLeaf 0 [98] [50]).getD zeroBuf

theorem demoLeaf1_represents :
    leafInsert zeroBuf emptyLeaf 0 [98] [50] = some demoLeaf1 ∧
    Represents demoLeaf1 BNODE_LEAF [⟨0, [98], [50]⟩] := by
  obtain ⟨nd, h1, h2⟩ := leafInsert_spec zeroBuf emptyLeaf BNODE_LEAF [] 0 [98] [50]
    emptyLeaf_represents (by simp) (by decide) (by decide) (by decide) (by decide)
    (by decide)
  simp only [List.take_nil, List.drop_nil, List.nil_append] at h2
  have hd : demoLeaf1 = nd := by
    unfold demoLeaf1
    rw [h1]
    rfl
  rw [hd]
  exact ⟨h1, h2⟩

/-- C7: starting from an empty leaf, inserting ("b","2") at index 0 yields a
node with 1 record and key "b"; inserting ("a","1") at index 0 into that node
yields `nkeys = 2`, keys "a" then "b", and `nbytes() = 36`. -/
theorem c7_scenario :
    (leafInsert zeroBuf emptyLeaf 0 [98] [50]).map BNode.nkeys = some 1 ∧
    (leafInsert zeroBuf emptyLeaf 0 [98] [50]).bind (fun nd => nd.getKey 0) =
      some [98] ∧
    leafInsert zeroBuf emptyLeaf 0 [98] [50] = some demoLeaf1 ∧
    (leafInsert zeroBuf demoLeaf1 0 [97] [49]).map BNode.nkeys = some 2 ∧
    (leafInsert zeroBuf demoLeaf1 0 [97] [49]).bind (fun nd => nd.getKey 0) =
      some [97] ∧
    (leafInsert zeroBuf demoLeaf1 0 [97] [49]).bind (fun nd => nd.getKey 1) =
      some [98] ∧
    (leafInsert zeroBuf demoLeaf1 0 [97] [49]).bind BNode.nbytes = some 36 := by
  obtain ⟨hd1, hdrep⟩ := demoLeaf1_represents
  obtain ⟨nd2, h1, h2⟩ := leafInsert_spec zeroBuf demoLeaf1 BNODE_LEAF
    [⟨0, [98], [50]⟩] 0 [97] [49] hdrep (by simp) (by decide) (by decide)
    (by decide) (by decide) (by decide)
  simp only [List.take_zero, List.drop_zero, List.nil_append] at h2
  have hkey0 := BuildState.getKey_eq h2 0 (by decide)
  have hkey1 := BuildState.getKey_eq h2 1 (by decide)
  have hnb := Represents.nbytes_eq h2
  have hnk : nd2.nkeys = 2 := h2.hnkeys
  refine ⟨by decide, by decide, hd1, ?_, ?_, ?_, ?_⟩
  · rw [h1]
    show some nd2.nkeys = some 2
    rw [hnk]
  · rw [h1]
    show nd2.getKey 0 = some [97]
    rw [hkey0]
    rfl
  · rw [h1]
    show nd2.getKey 1 = some [98]
    rw [hkey1]
    rfl
  · rw [h1]
    show nd2.nbytes = some 36
    rw [hnb]
    decide

/-- The maximum-sized key: 1000 bytes. -/
def maxKey : List Nat := List.replicate 1000 97

/-- The maximum-sized value: 3000 bytes. -/
def maxVal : List Nat := List.replicate 3000 98

/-- C9: the node holding exactly one maximum-sized key-value pair
(`nkeys = 1`, `keylen = 1000`, `vallen = 3000`) has
`nbytes() = HEADER + 8 + 2 + 4 + 1000 + 3000 = 4018 ≤ BTREE_PAGE_SIZE`, the
same quantity `node1max` that `init()` checks, so `init()` does not panic. -/
theorem c9_boundary :
    (leafInsert zeroBuf emptyLeaf 0 maxKey maxVal).bind BNode.nbytes =
      some (HEADER + 8 + 2 + 4 + 1000 + 3000) ∧
    HEADER + 8 + 2 + 4 + 1000 + 3000 = 4018 ∧
    node1max = HEADER + 8 + 2 + 4 + 1000 + 3000 ∧
    node1max ≤ BTREE_PAGE_SIZE ∧ initOk = true := by
  refine ⟨?_, by decide, by decide, by decide, by decide⟩
  have hH : HEADER = 4 := rfl
  have hkb : ∀ b ∈ maxKey, b < 256 := by
    intro b hb
    have := List.eq_of_mem_replicate hb
    omega
  have hvb : ∀ b ∈ maxVal, b < 256 := by
    intro b hb
    have := List.eq_of_mem_replicate hb
    omega
  have hkl : maxKey.length = 1000 := by
    unfold maxKey
    rw [List.length_replicate]
  have hvl : maxVal.length = 3000 := by
    unfold maxVal
    rw [List.length_replicate]
  obtain ⟨nd, h1, h2⟩ := leafInsert_spec zeroBuf emptyLeaf BNODE_LEAF [] 0 maxKey maxVal
    emptyLeaf_represents (by simp) (by omega) (by omega) hkb hvb
    (by simp only [List.length_nil, kvSize_nil, hkl, hvl]; omega)
  rw [h1]
  show nd.nbytes = _
  have hnb := Represents.nbytes_eq h2
  simp only [List.take_nil, List.drop_nil, List.nil_append, List.length_cons,
    List.length_nil] at hnb
  rw [hnb]
  have hkv : kvSize [(⟨0, maxKey, maxVal⟩ : Rec)] = 4 + 1000 + 3000 := by
    rw [kvSize_singleton]
    simp [recSize, hkl, hvl]
  rw [hkv]

/-- C4: for every node constructed in a buffer by a `setHeader` call followed
by a left-to-right sequence of `nodeAppendKV` and `nodeAppendRange` calls
covering indices `0..nkeys-1`, `getKey(i)` and `getVal(i)` return exactly the
key and value bytes supplied for record `i` at construction. -/
theorem c4_build_roundtrip (buf : BNode) (t : Nat) (steps : List BuildStep)
    (rs : List Rec) (hok : StepsOK steps rs) (ht : t < 65536)
    (hsize : HEADER + 10 * rs.length + kvSize rs ≤ 65535) :
    ∃ nd, runBuild (BNode.setHeader buf t rs.length) 0 steps = some nd ∧
      ∀ i, i < rs.length → nd.getKey i = some ((rs.getD i defRec).key) ∧
        nd.getVal i = some ((rs.getD i defRec).val) := by
  have hb0 := setHeader_buildState buf t rs.length ht (by omega)
  obtain ⟨nd, h1, hb⟩ := runBuild_spec hok _ t rs.length [] hb0 (by simp)
    (by simpa [kvSize_nil] using hsize)
  simp only [List.length_nil, List.nil_append] at h1 hb
  exact ⟨nd, h1, fun i hi =>
    ⟨BuildState.getKey_eq hb i hi, BuildState.getVal_eq hb i hi⟩⟩

/-- Witness for C4: a one-step build of a single record (5, "a", "1"). -/
theorem c4_witness :
    ∃ nd, runBuild (BNode.setHeader zeroBuf 2 1) 0 [BuildStep.kv 5 [97] [49]] =
      some nd ∧
      ∀ i, i < 1 → nd.getKey i = some (([(⟨5, [97], [49]⟩ : Rec)].getD i defRec).key) ∧
        nd.getVal i = some (([(⟨5, [97], [49]⟩ : Rec)].getD i defRec).val) :=
  c4_build_roundtrip zeroBuf 2 [BuildStep.kv 5 [97] [49]] [⟨5, [97], [49]⟩]
    (StepsOK.kv 5 [97] [49] [] [] (by decide) StepsOK.nil) (by decide) (by decide)

/-- C6: after `nodeAppendKV(new, idx, ptr, key, val)` on a node whose header
and offsets up to `idx` are already set (with `idx` the next free slot),
`new.getPtr(idx) = ptr`, the bytes at `new.kvPos(idx)` encode
(len(key) LE16, len(val) LE16, key, val), and
`new.getOffset(idx+1) = new.getOffset(idx) + 4 + len(key) + len(val)`. -/
theorem c6_nodeAppendKV_behavior (node : BNode) (t total : Nat) (rs : List Rec)
    (ptr : Nat) (key val : List Nat)
    (hb : BuildState node t total rs) (hfr : rs.length < total)
    (hp : ptr < 2 ^ 64) (hkl : key.length < 65536) (hvl : val.length < 65536)
    (hkb : ∀ b ∈ key, b < 256) (hvb : ∀ b ∈ val, b < 256)
    (hroom : HEADER + 10 * total + kvSize rs + (4 + key.length + val.length) ≤ 65535) :
    ∃ nd, nodeAppendKV node rs.length ptr key val = some nd ∧
      nd.getPtr rs.length = some ptr ∧
      (∀ pos, nd.kvPos rs.length = some pos →
        readU16 nd pos = key.length ∧
        readU16 nd ((pos + 2) % 65536) = val.length ∧
        (∀ j, j < key.length → nd ((pos + 4) % 65536 + j) % 256 = key.getD j 0) ∧
        (∀ j, j < val.length →
          nd ((pos + 4 + key.length) % 65536 + j) % 256 = val.getD j 0)) ∧
      (∀ off, node.getOffset rs.length = some off →
        nd.getOffset (rs.length + 1) = some (off + 4 + key.length + val.length)) := by
  have hH : HEADER = 4 := rfl
  obtain ⟨nd, h1, hb2⟩ := nodeAppendKV_step hb hfr ptr key val hp hkl hvl hkb hvb hroom
  have hlen2 : (rs ++ [(⟨ptr, key, val⟩ : Rec)]).length = rs.length + 1 := by simp
  have hget : (rs ++ [(⟨ptr, key, val⟩ : Rec)]).getD rs.length defRec =
      ⟨ptr, key, val⟩ := by
    have := getD_append_right rs [(⟨ptr, key, val⟩ : Rec)] 0 defRec
    simpa using this
  have htake : (rs ++ [(⟨ptr, key, val⟩ : Rec)]).take rs.length = rs :=
    by rw [take_append_le rs _ rs.length le_rfl, List.take_length]
  refine ⟨nd, h1, ?_, ?_, ?_⟩
  · have := hb2.hptr rs.length (by omega)
    rw [hget] at this
    exact this
  · intro pos hpos
    have hkvpos := BuildState.kvPos_eq hb2 rs.length (by omega)
    rw [htake] at hkvpos
    rw [hkvpos] at hpos
    injection hpos with hpos
    subst hpos
    have hklen := hb2.klen_eq rs.length (by omega)
    have hvlen := hb2.vlen_eq rs.length (by omega)
    rw [htake, hget] at hklen hvlen
    have hmod2 : (HEADER + 10 * total + kvSize rs + 2) % 65536 =
        HEADER + 10 * total + kvSize rs + 2 := Nat.mod_eq_of_lt (by omega)
    have hmod4 : (HEADER + 10 * total + kvSize rs + 4) % 65536 =
        HEADER + 10 * total + kvSize rs + 4 := Nat.mod_eq_of_lt (by omega)
    have hmod4k : (HEADER + 10 * total + kvSize rs + 4 + key.length) % 65536 =
        HEADER + 10 * total + kvSize rs + 4 + key.length :=
      Nat.mod_eq_of_lt (by omega)
    refine ⟨hklen, by rw [hmod2]; exact hvlen, ?_, ?_⟩
    · intro j hj
      rw [hmod4]
      have hrb := hb2.recByte rs.length (by omega) (4 + j)
        (by rw [hget]; simp only [recSize]; omega)
      rw [htake, hget] at hrb
      rw [show HEADER + 10 * total + kvSize rs + (4 + j) =
          HEADER + 10 * total + kvSize rs + 4 + j from by omega] at hrb
      rw [hrb]
      exact recBytes_getD_key ⟨ptr, key, val⟩ j hj
    · intro j hj
      rw [hmod4k]
      have hrb := hb2.recByte rs.length (by omega) (4 + (key.length + j))
        (by rw [hget]; simp only [recSize]; omega)
      rw [htake, hget] at hrb
      rw [show HEADER + 10 * total + kvSize rs + (4 + (key.length + j)) =
          HEADER + 10 * total + kvSize rs + 4 + key.length + j from by omega] at hrb
      rw [hrb]
      exact recBytes_getD_val ⟨ptr, key, val⟩ j hj
  · intro off hoff
    have hoff0 : node.getOffset rs.length = some (kvSize rs) := by
      have h := hb.hoff rs.length le_rfl
      rwa [List.take_length] at h
    rw [hoff0] at hoff
    injection hoff with hoff
    subst hoff
    have h := hb2.hoff (rs.length + 1) (by omega)
    have htk : (rs ++ [(⟨ptr, key, val⟩ : Rec)]).take (rs.length + 1) =
        rs ++ [⟨ptr, key, val⟩] := by
      apply List.take_of_length_le
      simp
    rw [htk, kvSize_append, kvSize_singleton] at h
    rw [h]
    congr 1
    simp only [recSize]
    omega

/-- Witness for C6: appending (7, "a", "1") to a freshly headed empty node. -/
theorem c6_witness :
    ∃ nd, nodeAppendKV (BNode.setHeader zeroBuf 2 1) 0 7 [97] [49] = some nd ∧
      nd.getPtr 0 = some 7 ∧
      (∀ pos, nd.kvPos 0 = some pos →
        readU16 nd pos = [97].length ∧
        readU16 nd ((pos + 2) % 65536) = [49].length ∧
        (∀ j, j < [97].length → nd ((pos + 4) % 65536 + j) % 256 = [97].getD j 0) ∧
        (∀ j, j < [49].length →
          nd ((pos + 4 + [97].length) % 65536 + j) % 256 = [49].getD j 0)) ∧
      (∀ off, (BNode.setHeader zeroBuf 2 1).getOffset 0 = some off →
        nd.getOffset (0 + 1) = some (off + 4 + [97].length + [49].length)) :=
  c6_nodeAppendKV_behavior (BNode.setHeader zeroBuf 2 1) 2 1 [] 7 [97] [49]
    (setHeader_buildState zeroBuf 2 1 (by decide) (by decide)) (by decide)
    (by decide) (by decide) (by decide) (by decide) (by decide) (by decide)

/-- C5: `nodeAppendRange(new, old, dstNew, srcOld, n)` leaves `new` entirely
unchanged when `n = 0`; for `n > 0` (appending at the current frontier of a
node under construction) it copies the `n` pointers `old.getPtr(srcOld+i)`
into slots `dstNew+i`, sets each destination offset `dstNew+i` (for `i` in
`1..n`) to `new.getOffset(dstNew) + (old.getOffset(srcOld+i) -
old.getOffset(srcOld))`, and copies the contiguous byte range
`[old.kvPos(srcOld), old.kvPos(srcOld+n))` to `new.kvPos(dstNew)`. -/
theorem c5_nodeAppendRange_behavior :
    (∀ (nw old : BNode) (dst src : Nat), nodeAppendRange nw old dst src 0 = some nw) ∧
    (∀ (node old : BNode) (t total t2 : Nat) (rs os : List Rec) (src n : Nat),
      BuildState node t total rs → Represents old t2 os →
      src + n ≤ os.length → rs.length + n ≤ total →
      HEADER + 10 * total + kvSize rs + kvSize ((os.drop src).take n) ≤ 65535 →
      ∃ nd, nodeAppendRange node old rs.length src n = some nd ∧
        (∀ i, i < n → nd.getPtr (rs.length + i) = old.getPtr (src + i)) ∧
        (∀ i dB sB sI, 1 ≤ i → i ≤ n →
          node.getOffset rs.length = some dB → old.getOffset src = some sB →
          old.getOffset (src + i) = some sI →
          nd.getOffset (rs.length + i) = some (dB + (sI - sB))) ∧
        (∀ pN pB pE, node.kvPos rs.length = some pN → old.kvPos src = some pB →
          old.kvPos (src + n) = some pE →
          ∀ k, k < pE - pB → nd (pN + k) % 256 = old (pB + k) % 256)) := by
  have hH : HEADER = 4 := rfl
  constructor
  · intro nw old dst src
    unfold nodeAppendRange
    simp
  · intro node old t total t2 rs os src n hb hold hsrc hdst hroom
    obtain ⟨nd, h1, hb2⟩ := nodeAppendRange_step hb hold src n hsrc hdst hroom
    have hchlen : ((os.drop src).take n).length = n := chunk_length os src n hsrc
    have holdsz := hold.hsize
    have hsz := hb.hsize
    refine ⟨nd, h1, ?_, ?_, ?_⟩
    · intro i hi
      have h := hb2.hptr (rs.length + i) (by simp [hchlen]; omega)
      rw [getD_append_right rs _ i defRec, chunk_getD os src n i hi hsrc] at h
      rw [h, hold.hptr (src + i) (by omega)]
    · intro i dB sB sI hi1 hi2 hdB hsB hsI
      have hdB0 : node.getOffset rs.length = some (kvSize rs) := by
        have h := hb.hoff rs.length le_rfl
        rwa [List.take_length] at h
      rw [hdB0] at hdB
      injection hdB with hdB
      have hsB0 := hold.hoff src (by omega)
      rw [hsB0] at hsB
      injection hsB with hsB
      have hsI0 := hold.hoff (src + i) (by omega)
      rw [hsI0] at hsI
      injection hsI with hsI
      subst hdB hsB hsI
      have h := hb2.hoff (rs.length + i) (by simp [hchlen]; omega)
      have htk : (rs ++ (os.drop src).take n).take (rs.length + i) =
          rs ++ ((os.drop src).take n).take i := by
        rw [List.take_add]
        congr 1
        · rw [take_append_le rs _ rs.length le_rfl, List.take_length]
        · rw [List.drop_left]
      have htt : ((os.drop src).take n).take i = (os.drop src).take i := by
        rw [List.take_take, Nat.min_eq_left hi2]
      rw [htk, htt, kvSize_append] at h
      rw [h]
      have hadd := kvSize_take_add os src i
      congr 1
      omega
    · intro pN pB pE hpN hpB hpE k hk
      have hpN0 : node.kvPos rs.length = some (HEADER + 10 * total + kvSize rs) := by
        have h := BuildState.kvPos_eq hb rs.length le_rfl
        rwa [List.take_length] at h
      rw [hpN0] at hpN
      injection hpN with hpN
      have hpB0 := BuildState.kvPos_eq hold src (by omega)
      rw [hpB0] at hpB
      injection hpB with hpB
      have hpE0 := BuildState.kvPos_eq hold (src + n) (by omega)
      rw [hpE0] at hpE
      injection hpE with hpE
      subst hpN hpB hpE
      have hadd := kvSize_take_add os src n
      have hklt : k < kvSize ((os.drop src).take n) := by omega
      have hl := hb2.hkv (kvSize rs + k)
        (by rw [kvSize_append]; omega)
      rw [show HEADER + 10 * total + (kvSize rs + k) =
          HEADER + 10 * total + kvSize rs + k from by omega] at hl
      rw [hl, kvBytes_append]
      rw [show kvSize rs + k = (kvBytes rs).length + k from by rw [kvBytes_length]]
      rw [getD_append_right]
      have hold_kvlen : kvSize (os.take src) + kvSize ((os.drop src).take n) ≤
          kvSize os := by
        conv_rhs => rw [← List.take_append_drop src os]
        rw [kvSize_append]
        have := kvSize_take_le n (os.drop src)
        omega
      have hr := hold.hkv (kvSize (os.take src) + k) (by omega)
      rw [show HEADER + 10 * os.length + kvSize (os.take src) + k =
          HEADER + 10 * os.length + (kvSize (os.take src) + k) from by omega]
      rw [hr, kvBytes_drop_getD os src n k hsrc hklt]

/-- Witness for C5: copying the two records of `sampleLeaf` into a freshly
headed 2-slot node, plus the `n = 0` no-op at concrete arguments. -/
theorem c5_witness :
    nodeAppendRange zeroBuf sampleLeaf 3 1 0 = some zeroBuf ∧
    ∃ nd, nodeAppendRange (BNode.setHeader zeroBuf 2 2) sampleLeaf 0 0 2 = some nd ∧
      (∀ i, i < 2 → nd.getPtr (0 + i) = sampleLeaf.getPtr (0 + i)) ∧
      (∀ i dB sB sI, 1 ≤ i → i ≤ 2 →
        (BNode.setHeader zeroBuf 2 2).getOffset 0 = some dB →
        sampleLeaf.getOffset 0 = some sB →
        sampleLeaf.getOffset (0 + i) = some sI →
        nd.getOffset (0 + i) = some (dB + (sI - sB))) ∧
      (∀ pN pB pE, (BNode.setHeader zeroBuf 2 2).kvPos 0 = some pN →
        sampleLeaf.kvPos 0 = some pB → sampleLeaf.kvPos (0 + 2) = some pE →
        ∀ k, k < pE - pB → nd (pN + k) % 256 = sampleLeaf (pB + k) % 256) :=
  ⟨c5_nodeAppendRange_behavior.1 zeroBuf sampleLeaf 3 1,
   c5_nodeAppendRange_behavior.2 (BNode.setHeader zeroBuf 2 2) sampleLeaf 2 2
    BNODE_LEAF [] sampleRecs 0 2
    (setHeader_buildState zeroBuf 2 2 (by decide) (by decide))
    sampleLeaf_represents (by decide) (by decide) (by decide)⟩

/-- Witness for C8 at a concrete node and indices. -/
theorem c8_witness :
    (sampleLeaf.getPtr 5 = none ↔ sampleLeaf.nkeys ≤ 5) ∧
    (sampleLeaf.setPtr 5 9 = none ↔ sampleLeaf.nkeys ≤ 5) ∧
    (sampleLeaf.getKey 5 = none ↔ sampleLeaf.nkeys ≤ 5) ∧
    (sampleLeaf.getVal 5 = none ↔ sampleLeaf.nkeys ≤ 5) ∧
    (sampleLeaf.getOffset 0 = some 0) ∧
    (sampleLeaf.getOffset 5 = none ↔ (5 ≠ 0 ∧ ¬ (1 ≤ 5 ∧ 5 ≤ sampleLeaf.nkeys))) ∧
    (sampleLeaf.setOffset 5 3 = none ↔ ¬ (1 ≤ 5 ∧ 5 ≤ sampleLeaf.nkeys)) :=
  c8_accessor_panics sampleLeaf 5 3 9

theorem bytesCompare_lt_of_le_ne (a b : List Nat) (hle : bytesCompare a b ≤ 0)
    (hne : a ≠ b) : bytesCompare a b < 0 := by
  rcases lt_or_eq_of_le hle with h | h
  · exact h
  · exact absurd (bytesCompare_eq_zero a b h) hne

/-- C3: for every old leaf node with strictly increasing keys and every key
not present in it, inserting via `leafInsert` at the slot determined by
`nodeLookupLE` (`lookupFloor + 1`, or slot 0 when the probe precedes
`keyAt(0)`) yields a node whose keys are again strictly increasing. -/
theorem c3_leafInsert_sorted (buf old : BNode) (t2 : Nat) (rs : List Rec)
    (key val : List Nat) (r : Nat)
    (hold : Represents old t2 rs)
    (hpage : HEADER + 10 * rs.length + kvSize rs ≤ BTREE_PAGE_SIZE)
    (hsorted : ∀ i, i + 1 < rs.length →
      bytesCompare ((rs.getD i defRec).key) ((rs.getD (i + 1) defRec).key) < 0)
    (hnotin : ∀ i, i < rs.length → (rs.getD i defRec).key ≠ key)
    (hkl : key.length ≤ BTREE_MAX_KEY_SIZE) (hvl : val.length ≤ BTREE_MAX_VAL_SIZE)
    (hkb : ∀ b ∈ key, b < 256) (hvb : ∀ b ∈ val, b < 256)
    (hr : nodeLookupLE old key = some r) :
    ∃ nd, leafInsert buf old
      (if rs.length = 0 then 0
       else if 0 < bytesCompare ((rs.getD 0 defRec).key) key then 0 else r + 1)
      key val = some nd ∧
      ∀ i, i + 1 < nd.nkeys → ∃ k1 k2, nd.getKey i = some k1 ∧
        nd.getKey (i + 1) = some k2 ∧ bytesCompare k1 k2 < 0 := by
  have hH : HEADER = 4 := rfl
  have hP : BTREE_PAGE_SIZE = 4096 := rfl
  have hK : BTREE_MAX_KEY_SIZE = 1000 := rfl
  have hV : BTREE_MAX_VAL_SIZE = 3000 := rfl
  have hnk : old.nkeys = rs.length := hold.hnkeys
  have hks : ∀ i, i < old.nkeys → old.getKey i = some ((rs.getD i defRec).key) := by
    intro i hi
    exact BuildState.getKey_eq hold i (by omega)
  have hadj : ∀ j, j + 1 < old.nkeys →
      bytesCompare ((rs.getD j defRec).key) ((rs.getD (j + 1) defRec).key) < 0 := by
    intro j hj
    exact hsorted j (by omega)
  obtain ⟨r2, hr2eq, h0, h1⟩ := nodeLookupLE_spec old (fun i => (rs.getD i defRec).key)
    key hks hadj
  rw [hr] at hr2eq
  injection hr2eq with hr2eq
  subst hr2eq
  have hglob := sorted_global rs.length (fun i => (rs.getD i defRec).key) hsorted
  -- the insertion slot and the two ordering facts around it
  have hmain : ∀ idx, idx ≤ rs.length →
      (∀ i, i < idx → bytesCompare ((rs.getD i defRec).key) key < 0) →
      (∀ i, idx ≤ i → i < rs.length → 0 < bytesCompare ((rs.getD i defRec).key) key) →
      ∃ nd, leafInsert buf old idx key val = some nd ∧
        ∀ i, i + 1 < nd.nkeys → ∃ k1 k2, nd.getKey i = some k1 ∧
          nd.getKey (i + 1) = some k2 ∧ bytesCompare k1 k2 < 0 := by
    intro idx hidx hA hB
    obtain ⟨nd, hnd, hrep⟩ := leafInsert_spec buf old t2 rs idx key val hold hidx
      (by omega) (by omega) hkb hvb (by omega)
    refine ⟨nd, hnd, ?_⟩
    have hlen_new : (rs.take idx ++ (⟨0, key, val⟩ : Rec) :: rs.drop idx).length =
        rs.length + 1 := by
      simp [List.length_take, Nat.min_eq_left hidx]
      omega
    have hnd_nkeys : nd.nkeys = rs.length + 1 := by
      rw [hrep.hnkeys, hlen_new]
    have hgetD : ∀ j, j ≤ rs.length →
        (rs.take idx ++ (⟨0, key, val⟩ : Rec) :: rs.drop idx).getD j defRec =
          if j < idx then rs.getD j defRec
          else if j = idx then ⟨0, key, val⟩
          else rs.getD (j - 1) defRec := fun j hj => insert_getD rs idx _ hidx j hj
    have hnewSorted : ∀ i, i + 1 < rs.length + 1 →
        bytesCompare
          (((rs.take idx ++ (⟨0, key, val⟩ : Rec) :: rs.drop idx).getD i defRec).key)
          (((rs.take idx ++ (⟨0, key, val⟩ : Rec) :: rs.drop idx).getD (i + 1) defRec).key)
          < 0 := by
      intro i hi
      rw [hgetD i (by omega), hgetD (i + 1) (by omega)]
      by_cases h1i : i + 1 < idx
      · rw [if_pos (by omega : i < idx), if_pos h1i]
        exact hsorted i (by omega)
      · by_cases h2i : i + 1 = idx
        · rw [if_pos (by omega : i < idx), if_neg h1i, if_pos h2i]
          exact hA i (by omega)
        · by_cases h3i : i = idx
          · rw [if_neg (by omega : ¬ i < idx), if_pos h3i,
              if_neg (by omega : ¬ i + 1 < idx), if_neg (by omega : ¬ i + 1 = idx)]
            show bytesCompare key ((rs.getD (i + 1 - 1) defRec).key) < 0
            have hb := hB (i + 1 - 1) (by omega) (by omega)
            have hflip := bytesCompare_neg key ((rs.getD (i + 1 - 1) defRec).key)
            omega
          · rw [if_neg (by omega : ¬ i < idx), if_neg h3i,
              if_neg (by omega : ¬ i + 1 < idx), if_neg (by omega : ¬ i + 1 = idx)]
            have he : i + 1 - 1 = (i - 1) + 1 := by omega
            rw [he]
            exact hsorted (i - 1) (by omega)
    intro i hi
    rw [hnd_nkeys] at hi
    refine ⟨_, _, BuildState.getKey_eq hrep i (by omega),
      BuildState.getKey_eq hrep (i + 1) (by omega), ?_⟩
    exact hnewSorted i hi
  by_cases hz : rs.length = 0
  · rw [if_pos hz]
    exact hmain 0 (by omega) (fun i hi => by omega) (fun i hi1 hi2 => by omega)
  · rw [if_neg hz]
    obtain ⟨hrn, hle2, hgt3⟩ := h1 (by omega)
    by_cases hfirst : 0 < bytesCompare ((rs.getD 0 defRec).key) key
    · rw [if_pos hfirst]
      refine hmain 0 (by omega) (fun i hi => by omega) (fun i hi1 hi2 => ?_)
      rcases Nat.eq_zero_or_pos i with hi0 | hipos
      · subst hi0
        exact hfirst
      · have h01 := hglob 0 i hipos hi2
        have hkey0 : bytesCompare key ((rs.getD 0 defRec).key) < 0 := by
          have := bytesCompare_neg key ((rs.getD 0 defRec).key)
          omega
        have := bytesCompare_trans_neg key ((rs.getD 0 defRec).key)
          ((rs.getD i defRec).key) hkey0 h01
        have hflip := bytesCompare_neg key ((rs.getD i defRec).key)
        omega
    · rw [if_neg hfirst]
      refine hmain (r + 1) (by omega) (fun i hi => ?_) (fun i hi1 hi2 => ?_)
      · rcases Nat.eq_zero_or_pos i with hi0 | hipos
        · subst hi0
          exact bytesCompare_lt_of_le_ne _ _ (by omega) (hnotin 0 (by omega))
        · exact bytesCompare_lt_of_le_ne _ _ (hle2 i hipos (by omega))
            (hnotin i (by omega))
      · exact hgt3 i (by omega) (by omega)

/-- Witness for C3: inserting "c" into the ("a","b") sample leaf at the slot
`nodeLookupLE` determines. -/
theorem c3_witness :
    ∃ nd, leafInsert zeroBuf sampleLeaf 2 [99] [51] = some nd ∧
      ∀ i, i + 1 < nd.nkeys → ∃ k1 k2, nd.getKey i = some k1 ∧
        nd.getKey (i + 1) = some k2 ∧ bytesCompare k1 k2 < 0 := by
  have hks : ∀ i, i < sampleLeaf.nkeys →
      sampleLeaf.getKey i = some ((sampleRecs.getD i defRec).key) := by decide
  have h2 : sampleLeaf.nkeys = 2 := by decide
  have hadj : ∀ j, j + 1 < sampleLeaf.nkeys →
      bytesCompare ((sampleRecs.getD j defRec).key)
        ((sampleRecs.getD (j + 1) defRec).key) < 0 := by
    intro j hj
    rw [h2] at hj
    have h0 : j = 0 := by omega
    subst h0
    decide
  obtain ⟨r, hlook, h0, h1⟩ := nodeLookupLE_spec sampleLeaf
    (fun i => (sampleRecs.getD i defRec).key) [99] hks hadj
  obtain ⟨hrn, hr2, hr3⟩ := h1 (by omega)
  have hr1 : r = 1 := by
    by_contra hne
    have hr0 : r = 0 := by omega
    subst hr0
    have hgt := hr3 1 (by omega) (by omega)
    have hc : bytesCompare ((sampleRecs.getD 1 defRec).key) [99] = -1 := by decide
    omega
  subst hr1
  have happ := c3_leafInsert_sorted zeroBuf sampleLeaf BNODE_LEAF sampleRecs
    [99] [51] 1 sampleLeaf_represents (by decide)
    (by intro i hi
        have hl : sampleRecs.length = 2 := rfl
        rw [hl] at hi
        have h0 : i = 0 := by omega
        subst h0
        decide)
    (by decide) (by decide) (by decide) (by decide) (by decide) hlook
  have hidx : (if sampleRecs.length = 0 then 0
      else if 0 < bytesCompare ((sampleRecs.getD 0 defRec).key) [99] then 0
      else 1 + 1) = 2 := by decide
  rw [hidx] at happ
  exact happ

end GoBTree
